import Mathlib

set_option linter.unusedSectionVars false

/-!
Shallow embedding of `src/inner_product_proof.rs` from `bls_bulletproofs`:
a Bulletproofs-style inner-product argument.

Modelling choices:
* the BLS12-381 scalar field is an abstract field `F` with decidable equality;
* the group `G1Projective` is an abstract `F`-module `G`, written additively,
  whose zero is the point at infinity (the identity point);
* the Merlin transcript is an abstract deterministic state machine (`Oracle`);
* machine integers (`usize`) are `Nat`; the source guards every shift so no
  overflow is reachable in the modelled paths;
* Rust `assert!`/`panic!` in `create` is the `CResult.panic` outcome;
* fallible operations return `Except ProofError` exactly as in the source.
-/

namespace IPP

/-- Modelled from the spec: `errors.rs` is not under `src/`.  Section 7 of the
spec names the two error kinds used by the inner-product core:
`FormatError` for structural defects and `VerificationError` for failed
algebraic checks / out-of-range sizes / identity points. -/
inductive ProofError where
  | FormatError
  | VerificationError
deriving DecidableEq

/-- Modelled from the spec: the Merlin transcript (`transcript.rs`, not under
`src/`) is a deterministic challenge oracle with state `S`:
`innerproduct_domain_sep(n)` mixes in `n`, `append_point` absorbs a group
element under a label (`false` = `"L"`, `true` = `"R"`), and
`challenge_scalar` (always under label `"u"` here) squeezes a scalar and
advances the state. -/
structure Oracle (F G S : Type) where
  domainSep : S → Nat → S
  appendPoint : S → Bool → G → S
  challenge : S → F × S

/-- The proof object (lines 23-29): `L_vec`, `R_vec` of group elements and the
two final scalars `a`, `b`. -/
structure InnerProductProof (F G : Type) where
  L_vec : List G
  R_vec : List G
  a : F
  b : F
deriving DecidableEq

/-- Outcome of `create`: a Rust `assert!` failure is `CResult.panic`; a
returned `Err(e)` is `CResult.err e`; success carries the proof and the final
transcript state. -/
inductive CResult (F G S : Type) where
  | panic
  | err (e : ProofError)
  | ok (pr : InnerProductProof F G) (st : S)
deriving DecidableEq

deriving instance DecidableEq for Except

variable {F : Type} [Field F] [DecidableEq F]
variable {G : Type} [AddCommGroup G] [Module F G] [DecidableEq G]
variable {S : Type}

/-- `⌊log2⌋` via structural recursion on a fuel argument, so that the kernel
can evaluate it (`Nat.log2` is defined by well-founded recursion and does not
reduce).  `lg2F f n = Nat.log2 n` whenever `f ≥ n`. -/
def lg2F : Nat → Nat → Nat
  | 0, _ => 0
  | f + 1, n => if n ≤ 1 then 0 else lg2F f (n / 2) + 1

/-- `⌊log2 n⌋` (equal to `Nat.log2`, see `lg2_eq_log2`). -/
def lg2 (n : Nat) : Nat := lg2F n n

/-- Rust `usize::is_power_of_two`: true exactly on `2^k` (false at `0`). -/
def is_power_of_two (n : Nat) : Bool := n != 0 && n == 2 ^ lg2 n

/-- `inner_product` (lines 428-437).  The Rust function panics when the
lengths differ; the model returns `none` there. -/
def inner_product (a b : List F) : Option F :=
  if a.length = b.length then
    some ((List.zipWith (· * ·) a b).foldl (· + ·) 0)
  else none

/-- `⟨a,b⟩ = Σ aᵢ·bᵢ` as a total function (used to state properties). -/
def dot (a b : List F) : F := (List.zipWith (· * ·) a b).sum

/-- A multiscalar multiplication `Σ sᵢ • Pᵢ`.  It truncates to the shorter
list, exactly as the Rust `Iterator::zip` underlying every `.sum()` of
`(s, P) → P * s` pairs does. -/
def msm (scalars : List F) (points : List G) : G :=
  (List.zipWith (fun s P => s • P) scalars points).sum

/-- The `a` fold of one round (line 130 and line 178):
`a_L[i] ← a_L[i]*u + a_R[i]*u⁻¹`. -/
def fold_a (u : F) (xL xR : List F) : List F :=
  List.zipWith (fun x y => x * u + y * u⁻¹) xL xR

/-- The `b` fold of one round (line 131 and line 179):
`b_L[i] ← b_L[i]*u⁻¹ + b_R[i]*u`. -/
def fold_b (u : F) (xL xR : List F) : List F :=
  List.zipWith (fun x y => x * u⁻¹ + y * u) xL xR

/-- The plain `G` fold (line 180): `G_L[i] ← u⁻¹•G_L[i] + u•G_R[i]`. -/
def fold_g (u : F) (XL XR : List G) : List G :=
  List.zipWith (fun X Y => u⁻¹ • X + u • Y) XL XR

/-- The plain `H` fold (line 181): `H_L[i] ← u•H_L[i] + u⁻¹•H_R[i]`. -/
def fold_h (u : F) (XL XR : List G) : List G :=
  List.zipWith (fun X Y => u • X + u⁻¹ • Y) XL XR

/-- The fused round-0 `G` fold (line 132):
`G_L[i] ← (u⁻¹·g[i])•G_L[i] + (u·g[m+i])•G_R[i]` with `m = n/2`. -/
def fold_g_fused (u : F) (gf : List F) (m : Nat) (XL XR : List G) : List G :=
  List.zipWith (fun (p : F × G) (q : F × G) => (u⁻¹ * p.1) • p.2 + (u * q.1) • q.2)
    ((gf.take m).zip XL) ((gf.drop m).zip XR)

/-- The fused round-0 `H` fold (line 133):
`H_L[i] ← (u·h[i])•H_L[i] + (u⁻¹·h[m+i])•H_R[i]` with `m = n/2`. -/
def fold_h_fused (u : F) (hf : List F) (m : Nat) (XL XR : List G) : List G :=
  List.zipWith (fun (p : F × G) (q : F × G) => (u * p.1) • p.2 + (u⁻¹ * q.1) • q.2)
    ((hf.take m).zip XL) ((hf.drop m).zip XR)

/-- The plain rounds of `create` (lines 142-188), plus the final return
(lines 190-195).  One iteration: halve, compute the cross inner products,
build `L` and `R` by multiscalar multiplication, absorb them, squeeze `u`
(error `FormatError` if it is not invertible), fold in place, recurse.

The first argument is structural-recursion fuel: the Rust `while n != 1`
loop halves `n` each iteration, so any fuel `≥ n` is never exhausted
(`createLoop` is always called with fuel `n`).  `n = 0` cannot reach the
loop because `create` asserts `n.is_power_of_two()` first, so the guard
`n ≤ 1` coincides with the Rust loop exit. -/
def createLoop (o : Oracle F G S) (Q : G) : Nat → Nat → List G → List G → List F → List F →
    List G → List G → S → CResult F G S
  | 0, _, _, _, av, bv, Lacc, Racc, st =>
    CResult.ok ⟨Lacc, Racc, av.headD 0, bv.headD 0⟩ st
  | fuel + 1, n, Gv, Hv, av, bv, Lacc, Racc, st =>
    if n ≤ 1 then
      CResult.ok ⟨Lacc, Racc, av.headD 0, bv.headD 0⟩ st
    else
      let m := n / 2
      let a_L := av.take m
      let a_R := av.drop m
      let b_L := bv.take m
      let b_R := bv.drop m
      let G_L := Gv.take m
      let G_R := Gv.drop m
      let H_L := Hv.take m
      let H_R := Hv.drop m
      match inner_product a_L b_R, inner_product a_R b_L with
      | some c_L, some c_R =>
        let L := msm (a_L ++ b_R ++ [c_L]) (G_R ++ H_L ++ [Q])
        let R := msm (a_R ++ b_L ++ [c_R]) (G_L ++ H_R ++ [Q])
        let st1 := o.appendPoint st false L
        let st2 := o.appendPoint st1 true R
        let u := (o.challenge st2).1
        let st3 := (o.challenge st2).2
        if u = 0 then CResult.err ProofError.FormatError
        else
          createLoop o Q fuel m (fold_g u G_L G_R) (fold_h u H_L H_R)
            (fold_a u a_L a_R) (fold_b u b_L b_R) (Lacc ++ [L]) (Racc ++ [R]) st3
      | _, _ => CResult.panic

/-- `InnerProductProof::create` (lines 43-196): the length asserts, the
power-of-two assert, the domain separator, the fused round 0 (lines 82-140)
and then the plain rounds. -/
def create (o : Oracle F G S) (Q : G) (G_factors H_factors : List F)
    (G_vec H_vec : List G) (a_vec b_vec : List F) (st : S) : CResult F G S :=
  let n := G_vec.length
  if H_vec.length = n ∧ a_vec.length = n ∧ b_vec.length = n
      ∧ G_factors.length = n ∧ H_factors.length = n then
    if is_power_of_two n then
      let st0 := o.domainSep st n
      if n ≠ 1 then
        let m := n / 2
        let a_L := a_vec.take m
        let a_R := a_vec.drop m
        let b_L := b_vec.take m
        let b_R := b_vec.drop m
        let G_L := G_vec.take m
        let G_R := G_vec.drop m
        let H_L := H_vec.take m
        let H_R := H_vec.drop m
        match inner_product a_L b_R, inner_product a_R b_L with
        | some c_L, some c_R =>
          let L := msm
            ((a_L.zip ((G_factors.drop m).take m)).map (fun p => p.1 * p.2)
              ++ (b_R.zip (H_factors.take m)).map (fun p => p.1 * p.2) ++ [c_L])
            (G_R ++ H_L ++ [Q])
          let R := msm
            ((a_R.zip (G_factors.take m)).map (fun p => p.1 * p.2)
              ++ (b_L.zip ((H_factors.drop m).take m)).map (fun p => p.1 * p.2) ++ [c_R])
            (G_L ++ H_R ++ [Q])
          let st1 := o.appendPoint st0 false L
          let st2 := o.appendPoint st1 true R
          let u := (o.challenge st2).1
          let st3 := (o.challenge st2).2
          if u = 0 then CResult.err ProofError.FormatError
          else
            createLoop o Q m m (fold_g_fused u G_factors m G_L G_R)
              (fold_h_fused u H_factors m H_L H_R)
              (fold_a u a_L a_R) (fold_b u b_L b_R) [L] [R] st3
        | _, _ => CResult.panic
      else
        createLoop o Q n n G_vec H_vec a_vec b_vec [] [] st0
    else CResult.panic
  else CResult.panic

/-- The challenge-recomputation loop of `verification_scalars`
(lines 220-225).  `validate_and_append_point` is modelled from the spec
(the transcript module is not under `src/`): it rejects the identity point
with `VerificationError` and otherwise appends the point. -/
def vsChallenges (o : Oracle F G S) : List (G × G) → S → Except ProofError (List F × S)
  | [], st => .ok ([], st)
  | (L, R) :: rest, st =>
    if L = 0 then .error ProofError.VerificationError
    else
      let st1 := o.appendPoint st false L
      if R = 0 then .error ProofError.VerificationError
      else
        let st2 := o.appendPoint st1 true R
        let u := (o.challenge st2).1
        let st3 := (o.challenge st2).2
        match vsChallenges o rest st3 with
        | .error e => .error e
        | .ok (us, st') => .ok (u :: us, st')

/-- Element `i` of the `s` vector (lines 251-262), with structural fuel
(any fuel `≥ i` is never exhausted since the index drops by at least one per
step; `sElem` below passes fuel `i`): `s[0] = allinv` and
`s[i] = s[i - 2^⌊log2 i⌋] * u_sq[(lg_n - 1) - ⌊log2 i⌋]` for `i ≥ 1`.
Rust computes `⌊log2 i⌋` as `31 - (i as u32).leading_zeros()`, which equals
`⌊log2 i⌋` on the whole reachable range `1 ≤ i < 2^32`. -/
def sElemF (u_sq : List F) (lg_n : Nat) (allinv : F) : Nat → Nat → F
  | _, 0 => allinv
  | 0, _ + 1 => allinv
  | f + 1, i + 1 =>
    let lg_i := lg2 (i + 1)
    sElemF u_sq lg_n allinv f (i + 1 - 2 ^ lg_i) * u_sq.getD (lg_n - 1 - lg_i) 0

/-- Element `i` of the `s` vector (lines 251-262). -/
def sElem (u_sq : List F) (lg_n : Nat) (allinv : F) (i : Nat) : F :=
  sElemF u_sq lg_n allinv i i

/-- `InnerProductProof::verification_scalars` (lines 201-265).  `1 << lg_n`
is written `2 ^ lg_n`; the guard `lg_n < 32` makes the two coincide on
`u32`/`usize`.  The per-challenge inversion loop of the source (`?` on the
first non-invertible challenge) is modelled by the any-zero test followed by
the total field inverse. -/
def verification_scalars (o : Oracle F G S) (pr : InnerProductProof F G) (n : Nat)
    (st : S) : Except ProofError (List F × List F × List F × S) :=
  let lg_n := pr.L_vec.length
  if 32 ≤ lg_n then .error ProofError.VerificationError
  else if n ≠ 2 ^ lg_n then .error ProofError.VerificationError
  else
    let st0 := o.domainSep st n
    match vsChallenges o (pr.L_vec.zip pr.R_vec) st0 with
    | .error e => .error e
    | .ok (challenges, st') =>
      if ∃ u ∈ challenges, u = 0 then .error ProofError.FormatError
      else
        let challenges_inv := challenges.map (·⁻¹)
        let allinv := challenges_inv.foldl (· * ·) 1
        let challenges_sq := challenges.map (fun u => u * u)
        let challenges_inv_sq := challenges_inv.map (fun u => u * u)
        let s := (List.range n).map (sElem challenges_sq lg_n allinv)
        .ok (challenges_sq, challenges_inv_sq, s, st')

/-- `InnerProductProof::verify` (lines 272-325). -/
def verify (o : Oracle F G S) (pr : InnerProductProof F G) (n : Nat)
    (G_factors H_factors : List F) (P Q : G) (Gv Hv : List G) (st : S) :
    Except ProofError Unit :=
  match verification_scalars o pr n st with
  | .error e => .error e
  | .ok (u_sq, u_inv_sq, s, _) =>
    let g_times_a_times_s :=
      ((G_factors.zip s).map (fun p => (pr.a * p.2) * p.1)).take Gv.length
    let inv_s := s.reverse
    let h_times_b_div_s := (H_factors.zip inv_s).map (fun p => (pr.b * p.2) * p.1)
    let neg_u_sq := u_sq.map (fun x => -x)
    let neg_u_inv_sq := u_inv_sq.map (fun x => -x)
    let scalars :=
      [pr.a * pr.b] ++ g_times_a_times_s ++ h_times_b_div_s ++ neg_u_sq ++ neg_u_inv_sq
    let points := [Q] ++ Gv ++ Hv ++ pr.L_vec ++ pr.R_vec
    let expect_P := msm scalars points
    if expect_P = P then .ok () else .error ProofError.VerificationError

/-- The honestly computed commitment named by the completeness claim:
`P = Σ aᵢ • (gᵢ • Gᵢ) + Σ bᵢ • (hᵢ • Hᵢ) + ⟨a,b⟩ • Q`. -/
def honestP (G_factors H_factors : List F) (Gv Hv : List G) (av bv : List F)
    (Q : G) : G :=
  msm av (List.zipWith (· • ·) G_factors Gv)
    + msm bv (List.zipWith (· • ·) H_factors Hv)
    + dot av bv • Q

/-! ### Codec

The byte-level encodings of points and scalars live in the external `blstrs`
crate (out of scope per the spec: an external capability with compressed
48-byte points and canonical 32-byte little-endian scalars).  We abstract
them as a `Codec`; bytes are modelled as `Nat`.  `read48`/`read32` of
`util.rs` (not under `src/`) read the 48- resp. 32-byte window at a given
offset, i.e. `(bs.drop pos).take 48` resp. `... .take 32`. -/

/-- Abstract point/scalar byte codec (the `blstrs` capability). -/
structure Codec (F G : Type) where
  compress : G → List Nat
  decompress : List Nat → Option G
  scalarToBytes : F → List Nat
  scalarFromBytes : List Nat → Option F

/-- `InnerProductProof::to_bytes` (lines 341-350): pairs `Lⱼ ‖ Rⱼ` in order,
then `a`, then `b`, accumulated by pushing onto a buffer. -/
def to_bytes (c : Codec F G) (pr : InnerProductProof F G) : List Nat :=
  (pr.L_vec.zip pr.R_vec).foldl
    (fun buf lr => buf ++ c.compress lr.1 ++ c.compress lr.2) []
    ++ c.scalarToBytes pr.a ++ c.scalarToBytes pr.b

/-- `InnerProductProof::to_bytes_iter` (lines 357-370): the streaming
serializer, a flat-map over the `(L, R)` pairs chained with the scalar
bytes. -/
def to_bytes_iter (c : Codec F G) (pr : InnerProductProof F G) : List Nat :=
  ((pr.L_vec.zip pr.R_vec).map (fun lr => c.compress lr.1 ++ c.compress lr.2)).flatten
    ++ c.scalarToBytes pr.a ++ c.scalarToBytes pr.b

/-- The point-decoding loop of `from_bytes` (lines 399-411): for
`i ∈ [0, cnt)` decode `L` at `pos + 96·i` and `R` at `pos + 96·i + 48`. -/
def decode_points (c : Codec F G) (bs : List Nat) : Nat → Nat →
    Except ProofError (List G × List G)
  | 0, _ => .ok ([], [])
  | i + 1, pos =>
    match c.decompress ((bs.drop pos).take 48) with
    | none => .error ProofError.FormatError
    | some L =>
      match c.decompress ((bs.drop (pos + 48)).take 48) with
      | none => .error ProofError.FormatError
      | some R =>
        match decode_points c bs i (pos + 96) with
        | .error e => .error e
        | .ok (Ls, Rs) => .ok (L :: Ls, R :: Rs)

/-- `InnerProductProof::from_bytes` (lines 378-420). -/
def from_bytes (c : Codec F G) (bs : List Nat) :
    Except ProofError (InnerProductProof F G) :=
  let b := bs.length
  if b < 2 * 32 then .error ProofError.FormatError
  else if (b - 32 * 2) % 48 ≠ 0 then .error ProofError.FormatError
  else
    let num_points := (b - 32 * 2) / 48
    if num_points % 2 ≠ 0 then .error ProofError.FormatError
    else
      let lg_n := num_points / 2
      if 32 ≤ lg_n then .error ProofError.FormatError
      else
        match decode_points c bs lg_n 0 with
        | .error e => .error e
        | .ok (L_vec, R_vec) =>
          let pos := 2 * lg_n * 48
          match c.scalarFromBytes ((bs.drop pos).take 32) with
          | none => .error ProofError.FormatError
          | some a =>
            match c.scalarFromBytes ((bs.drop (pos + 32)).take 32) with
            | none => .error ProofError.FormatError
            | some b => .ok ⟨L_vec, R_vec, a, b⟩

/-- The rejection condition stated by the parsing claim, written out from
the claim's words: length below 64, `(len−64) mod 48 ≠ 0`, odd point count,
`k ≥ 32`, a 48-byte group failing decompression, or a scalar failing
canonical decoding (group `j` starts at byte `48·j`; the scalars at
`96·k` and `96·k + 32`). -/
def from_bytes_rejects (c : Codec F G) (bs : List Nat) : Prop :=
  bs.length < 64 ∨ (bs.length - 64) % 48 ≠ 0 ∨ ((bs.length - 64) / 48) % 2 ≠ 0
    ∨ 32 ≤ ((bs.length - 64) / 48) / 2
    ∨ (∃ j, j < 2 * (((bs.length - 64) / 48) / 2)
        ∧ c.decompress ((bs.drop (48 * j)).take 48) = none)
    ∨ c.scalarFromBytes ((bs.drop (2 * (((bs.length - 64) / 48) / 2) * 48)).take 32) = none
    ∨ c.scalarFromBytes
        ((bs.drop (2 * (((bs.length - 64) / 48) / 2) * 48 + 32)).take 32) = none

/-! ### Spec-side closed forms

These definitions transcribe the *spec's words* (section 4.2 of `spec.md`);
they are compared with the source-derived definitions above. -/

/-- The closed form of the spec: `s[i] = Π_{j<k} u_j^{b_ij}` with
`b_ij = +1` iff bit `(k-1-j)` of `i` is set (`k = |us|`). -/
def sClosed (us : List F) (i : Nat) : F :=
  ∏ j ∈ Finset.range us.length,
    (if Nat.testBit i (us.length - 1 - j) then us.getD j 0 else (us.getD j 0)⁻¹)

/-- The coefficients that the final folded `G` base carries on the original
`G` entries after folding with challenges `us` (outermost first): folding one
round with challenge `u` multiplies the left-half coefficients by `u⁻¹` and
the right-half coefficients by `u`. -/
def coefList (us : List F) : List F :=
  match us with
  | [] => [1]
  | u :: rest => (coefList rest).map (· * u⁻¹) ++ (coefList rest).map (· * u)

/-- Same for the `H` base: left half gets `u`, right half `u⁻¹`. -/
def coefListH (us : List F) : List F :=
  match us with
  | [] => [1]
  | u :: rest => (coefListH rest).map (· * u) ++ (coefListH rest).map (· * u⁻¹)

/-! ### Concrete instances for evaluation

A tiny concrete field, `Fin 5` with the table inverse, acting on itself as
its own module of "points"; a transcript whose challenges are always `1`;
and a width-respecting codec.  Every operation is structurally recursive,
so witnesses evaluate by `decide`. -/

instance fin5_inv : Inv (Fin 5) := ⟨fun a => ([0, 1, 3, 2, 4] : List (Fin 5)).getD a.val 0⟩

instance fin5_field : Field (Fin 5) where
  exists_pair_ne := ⟨0, 1, by decide⟩
  div := fun a b => a * b⁻¹
  div_eq_mul_inv := fun _ _ => rfl
  mul_inv_cancel := by decide
  inv_zero := by decide
  nnqsmul := _
  qsmul := _

/-- A concrete transcript oracle over `Fin 5` with state `Unit`: every
squeezed challenge is `1` (which is invertible). -/
def o1 : Oracle (Fin 5) (Fin 5) Unit where
  domainSep := fun _ _ => ()
  appendPoint := fun _ _ _ => ()
  challenge := fun _ => (1, ())

/-- A concrete lawful codec for `Fin 5` points and scalars: the value byte
followed by zero padding to width 48 (points) resp. 32 (scalars). -/
def f5Codec : Codec (Fin 5) (Fin 5) where
  compress := fun g => g.val :: List.replicate 47 0
  decompress := fun bs =>
    match bs with
    | v :: rest =>
      if h : rest = List.replicate 47 0 ∧ v < 5 then some ⟨v, h.2⟩ else none
    | [] => none
  scalarToBytes := fun x => x.val :: List.replicate 31 0
  scalarFromBytes := fun bs =>
    match bs with
    | v :: rest =>
      if h : rest = List.replicate 31 0 ∧ v < 5 then some ⟨v, h.2⟩ else none
    | [] => none

/-! ## Lemmas -/

/-! ### `lg2` agrees with `Nat.log2` -/

theorem lg2F_eq_log2 : ∀ f n : Nat, n ≤ f → lg2F f n = Nat.log2 n := by
  intro f
  induction f with
  | zero =>
    intro n h
    have hn : n = 0 := Nat.le_zero.mp h
    subst hn
    simp [lg2F, Nat.log2_zero]
  | succ f ih =>
    intro n h
    by_cases h1 : n ≤ 1
    · have h2 : ¬ n ≥ 2 := by omega
      rw [lg2F, if_pos h1]
      unfold Nat.log2
      rw [if_neg h2]
    · have h2 : n ≥ 2 := by omega
      have hd : n / 2 ≤ f := by omega
      rw [lg2F, if_neg h1, ih _ hd]
      conv_rhs => unfold Nat.log2
      rw [if_pos h2]

theorem lg2_eq_log2 (n : Nat) : lg2 n = Nat.log2 n := lg2F_eq_log2 n n le_rfl

theorem lg2_two_pow (k : Nat) : lg2 (2 ^ k) = k := by
  rw [lg2_eq_log2]; exact Nat.log2_two_pow

theorem lg2_lt {n k : Nat} (h : n ≠ 0) : lg2 n < k ↔ n < 2 ^ k := by
  rw [lg2_eq_log2]; exact Nat.log2_lt h

theorem lg2_self_le {n : Nat} (h : n ≠ 0) : 2 ^ lg2 n ≤ n := by
  rw [lg2_eq_log2]; exact Nat.log2_self_le h

theorem lt_lg2_self {n : Nat} : n < 2 ^ (lg2 n + 1) := by
  rw [lg2_eq_log2]; exact Nat.lt_log2_self

theorem is_power_of_two_iff {n : Nat} : is_power_of_two n = true ↔ ∃ k, n = 2 ^ k := by
  unfold is_power_of_two
  constructor
  · intro h
    simp only [Bool.and_eq_true, bne_iff_ne, beq_iff_eq] at h
    exact ⟨lg2 n, h.2⟩
  · rintro ⟨k, rfl⟩
    simp only [Bool.and_eq_true, bne_iff_ne, beq_iff_eq]
    exact ⟨Nat.pos_iff_ne_zero.mp (Nat.pos_pow_of_pos _ (by decide)), by rw [lg2_two_pow]⟩

theorem is_power_of_two_two_pow (k : Nat) : is_power_of_two (2 ^ k) = true :=
  is_power_of_two_iff.mpr ⟨k, rfl⟩

/-! ### List element helpers -/

theorem getD_map_of_lt {α β : Type} (f : α → β) (l : List α) (d₀ : α) (d : β) {i : Nat}
    (h : i < l.length) : (l.map f).getD i d = f (l.getD i d₀) := by
  rw [List.getD_eq_getElem l d₀ h, List.getD_eq_getElem (l.map f) d (by simpa using h)]
  simp

theorem getD_append_lt {α : Type} (l l' : List α) (d : α) {i : Nat} (h : i < l.length) :
    (l ++ l').getD i d = l.getD i d := by
  rw [List.getD_eq_getElem l d h,
    List.getD_eq_getElem (l ++ l') d (by rw [List.length_append]; omega)]
  exact List.getElem_append_left h

theorem getD_append_ge {α : Type} (l l' : List α) (d : α) {i : Nat} (h : l.length ≤ i)
    (h2 : i < l.length + l'.length) : (l ++ l').getD i d = l'.getD (i - l.length) d := by
  rw [List.getD_eq_getElem l' d (by omega),
    List.getD_eq_getElem (l ++ l') d (by rw [List.length_append]; omega)]
  exact List.getElem_append_right h

theorem getD_reverse {α : Type} (l : List α) (d : α) {i : Nat} (h : i < l.length) :
    l.reverse.getD i d = l.getD (l.length - 1 - i) d := by
  rw [List.getD_eq_getElem l.reverse d (by simpa using h),
    List.getD_eq_getElem l d (by omega)]
  simp [List.getElem_reverse]

theorem range_map_getD {α β : Type} (l : List α) (f : α → β) (d : α) :
    (List.range l.length).map (fun j => f (l.getD j d)) = l.map f := by
  induction l with
  | nil => simp
  | cons x xs ih =>
    rw [List.length_cons, List.range_succ_eq_map, List.map_cons, List.map_map]
    have hc : ((fun j => f ((x :: xs).getD j d)) ∘ Nat.succ) = (fun j => f (xs.getD j d)) := by
      funext j
      simp [List.getD_cons_succ]
    rw [hc, ih, List.getD_cons_zero, List.map_cons]

theorem list_prod_range {M : Type} [CommMonoid M] (g : Nat → M) (n : Nat) :
    (∏ j ∈ Finset.range n, g j) = ((List.range n).map g).prod := by
  induction n with
  | zero => simp
  | succ n ih =>
    rw [Finset.prod_range_succ, List.range_succ, List.map_append, List.prod_append, ih]
    simp

theorem list_prod_range_getD {l : List F} {f : F → F} {d : F} :
    (∏ j ∈ Finset.range l.length, f (l.getD j d)) = (l.map f).prod := by
  rw [list_prod_range, range_map_getD]

/-! ### The `s` vector: inductive construction vs closed form -/

theorem sElemF_fuel {sq : List F} {lg_n : Nat} {allinv : F} :
    ∀ i f f' : Nat, i ≤ f → i ≤ f' →
      sElemF sq lg_n allinv f i = sElemF sq lg_n allinv f' i := by
  intro i
  induction i using Nat.strong_induction_on with
  | _ i ih =>
    intro f f' hf hf'
    match i, f, f' with
    | 0, f, f' => cases f <;> cases f' <;> rfl
    | i + 1, f + 1, f' + 1 =>
      have hpow : 0 < 2 ^ lg2 (i + 1) := Nat.pos_pow_of_pos _ (by decide)
      have hlt : (i + 1) - 2 ^ lg2 (i + 1) < i + 1 := by omega
      simp only [sElemF]
      rw [ih _ hlt f f' (by omega) (by omega)]

theorem sElem_zero {sq : List F} {lg_n : Nat} {allinv : F} :
    sElem sq lg_n allinv 0 = allinv := rfl

theorem sElem_rec {sq : List F} {lg_n : Nat} {allinv : F} {i : Nat} (h : 0 < i) :
    sElem sq lg_n allinv i
      = sElem sq lg_n allinv (i - 2 ^ lg2 i) * sq.getD (lg_n - 1 - lg2 i) 0 := by
  obtain ⟨j, rfl⟩ : ∃ j, i = j + 1 := ⟨i - 1, by omega⟩
  have hpow : 0 < 2 ^ lg2 (j + 1) := Nat.pos_pow_of_pos _ (by decide)
  show sElemF sq lg_n allinv (j + 1) (j + 1) = _
  simp only [sElemF]
  rw [sElemF_fuel _ _ _ (by omega) le_rfl]
  rfl

/-- In a field (where `0⁻¹ = 0`), `u⁻¹·u·u = u` holds with no hypothesis. -/
theorem inv_mul_sq (u : F) : u⁻¹ * (u * u) = u := by
  by_cases h : u = 0
  · simp [h]
  · field_simp

theorem allinv_eq_prod (us : List F) :
    (us.map (·⁻¹)).foldl (· * ·) 1 = (us.map (·⁻¹)).prod :=
  (List.prod_eq_foldl).symm

theorem sClosed_zero (us : List F) : sClosed us 0 = (us.map (·⁻¹)).prod := by
  unfold sClosed
  simp only [Nat.zero_testBit, if_neg Bool.false_ne_true]
  exact list_prod_range_getD

theorem sClosed_congr {us : List F} {i i' : Nat}
    (h : ∀ b, b < us.length → Nat.testBit i b = Nat.testBit i' b) :
    sClosed us i = sClosed us i' := by
  unfold sClosed
  refine Finset.prod_congr rfl ?_
  intro j hj
  have hjk : j < us.length := Finset.mem_range.mp hj
  rw [h _ (by omega)]

theorem sClosed_cons (u : F) (rest : List F) (i : Nat) :
    sClosed (u :: rest) i
      = sClosed rest i * (if Nat.testBit i rest.length then u else u⁻¹) := by
  unfold sClosed
  rw [List.length_cons, Finset.prod_range_succ']
  refine congrArg₂ (· * ·) ?_ ?_
  · refine Finset.prod_congr rfl ?_
    intro j hj
    have hjk : j < rest.length := Finset.mem_range.mp hj
    have h1 : rest.length + 1 - 1 - (j + 1) = rest.length - 1 - j := by omega
    rw [h1, List.getD_cons_succ]
  · have h2 : rest.length + 1 - 1 - 0 = rest.length := by omega
    rw [h2, List.getD_cons_zero]

/-- The closed form satisfies the inductive recurrence: this is the heart of
the `s`-vector refinement. -/
theorem sElem_eq_sClosed (us : List F) :
    ∀ i, i < 2 ^ us.length →
      sElem (us.map (fun u => u * u)) us.length ((us.map (·⁻¹)).foldl (· * ·) 1) i
        = sClosed us i := by
  intro i
  induction i using Nat.strong_induction_on with
  | _ i ih =>
    intro hi
    rcases Nat.eq_zero_or_pos i with h0 | hpos
    · subst h0
      rw [sElem_zero, allinv_eq_prod, sClosed_zero]
    · have hi0 : i ≠ 0 := Nat.pos_iff_ne_zero.mp hpos
      have hℓk : lg2 i < us.length := (lg2_lt hi0).mpr hi
      have hpow_le : 2 ^ lg2 i ≤ i := lg2_self_le hi0
      have hlt2 : i < 2 ^ (lg2 i + 1) := lt_lg2_self
      have hi'lt : i - 2 ^ lg2 i < 2 ^ lg2 i := by
        have := hlt2
        rw [pow_succ] at this
        omega
      have hii' : i = 2 ^ lg2 i + (i - 2 ^ lg2 i) := by omega
      have hj0r : us.length - 1 - lg2 i ∈ Finset.range us.length :=
        Finset.mem_range.mpr (by omega)
      have hposj0 : us.length - 1 - (us.length - 1 - lg2 i) = lg2 i := by omega
      rw [sElem_rec hpos,
        ih (i - 2 ^ lg2 i) (by omega) (by omega),
        getD_map_of_lt (fun u => u * u) us 0 0 (by omega : us.length - 1 - lg2 i < us.length)]
      unfold sClosed
      rw [← Finset.mul_prod_erase _ _ hj0r, ← Finset.mul_prod_erase _ _ hj0r, hposj0]
      have hbit_i : Nat.testBit i (lg2 i) = true := by
        have hb := Nat.testBit_two_pow_add_eq (i - 2 ^ lg2 i) (lg2 i)
        rw [← hii', Nat.testBit_lt_two_pow hi'lt] at hb
        rw [hb]
        rfl
      have hbit_i' : Nat.testBit (i - 2 ^ lg2 i) (lg2 i) = false :=
        Nat.testBit_lt_two_pow hi'lt
      rw [hbit_i, hbit_i', if_pos rfl, if_neg Bool.false_ne_true]
      have hcongr :
          (∏ j ∈ (Finset.range us.length).erase (us.length - 1 - lg2 i),
            (if Nat.testBit (i - 2 ^ lg2 i) (us.length - 1 - j) then us.getD j 0
              else (us.getD j 0)⁻¹))
          = ∏ j ∈ (Finset.range us.length).erase (us.length - 1 - lg2 i),
            (if Nat.testBit i (us.length - 1 - j) then us.getD j 0
              else (us.getD j 0)⁻¹) := by
        refine Finset.prod_congr rfl ?_
        intro j hj
        obtain ⟨hjne, hjr⟩ := Finset.mem_erase.mp hj
        have hjk : j < us.length := Finset.mem_range.mp hjr
        have hbit : Nat.testBit (i - 2 ^ lg2 i) (us.length - 1 - j)
            = Nat.testBit i (us.length - 1 - j) := by
          rcases Nat.lt_trichotomy (us.length - 1 - j) (lg2 i) with hc | hc | hc
          · conv_rhs => rw [hii']
            rw [Nat.testBit_two_pow_add_gt hc]
          · exact absurd (by omega : j = us.length - 1 - lg2 i) hjne
          · rw [Nat.testBit_lt_two_pow
                (Nat.lt_of_lt_of_le hi'lt (Nat.pow_le_pow_right (by decide) (by omega))),
              Nat.testBit_lt_two_pow
                (Nat.lt_of_lt_of_le hlt2 (Nat.pow_le_pow_right (by decide) (by omega)))]
        rw [hbit]
      rw [hcongr]
      generalize (∏ j ∈ (Finset.range us.length).erase (us.length - 1 - lg2 i),
        (if Nat.testBit i (us.length - 1 - j) then us.getD j 0 else (us.getD j 0)⁻¹)) = P
      generalize us.getD (us.length - 1 - lg2 i) 0 = u
      calc (u⁻¹ * P) * (u * u) = (u⁻¹ * (u * u)) * P := by ring
        _ = u * P := by rw [inv_mul_sq]

/-! ### The fold coefficients `coefList` -/

theorem coefList_length (us : List F) : (coefList us).length = 2 ^ us.length := by
  induction us with
  | nil => rfl
  | cons u rest ih =>
    simp only [coefList, List.length_append, List.length_map, ih, List.length_cons]
    rw [pow_succ]
    omega

theorem coefListH_eq_reverse (us : List F) : coefListH us = (coefList us).reverse := by
  induction us with
  | nil => rfl
  | cons u rest ih =>
    simp only [coefListH, coefList, ih, List.reverse_append, List.map_reverse]

theorem coefListH_length (us : List F) : (coefListH us).length = 2 ^ us.length := by
  rw [coefListH_eq_reverse, List.length_reverse, coefList_length]

theorem coefList_getD (us : List F) :
    ∀ i, i < 2 ^ us.length → (coefList us).getD i 0 = sClosed us i := by
  induction us with
  | nil =>
    intro i hi
    have h0 : i = 0 := by simp at hi; omega
    subst h0
    simp [coefList, sClosed]
  | cons u rest ih =>
    intro i hi
    rw [List.length_cons, pow_succ] at hi
    by_cases hlt : i < 2 ^ rest.length
    · rw [coefList,
        getD_append_lt _ _ _ (by rw [List.length_map, coefList_length]; exact hlt),
        getD_map_of_lt _ _ 0 _ (by rw [coefList_length]; exact hlt),
        ih i hlt, sClosed_cons,
        if_neg (by rw [Nat.testBit_lt_two_pow hlt]; exact Bool.false_ne_true)]
    · have hge : 2 ^ rest.length ≤ i := by omega
      have hi' : i - 2 ^ rest.length < 2 ^ rest.length := by omega
      have hii : i = 2 ^ rest.length + (i - 2 ^ rest.length) := by omega
      rw [coefList,
        getD_append_ge _ _ _
          (by rw [List.length_map, coefList_length]; exact hge)
          (by simp only [List.length_map, coefList_length]; omega),
        List.length_map, coefList_length,
        getD_map_of_lt _ _ 0 _ (by rw [coefList_length]; exact hi'),
        ih _ hi', sClosed_cons]
      have hbit : Nat.testBit i rest.length = true := by
        have hb := Nat.testBit_two_pow_add_eq (i - 2 ^ rest.length) rest.length
        rw [← hii, Nat.testBit_lt_two_pow hi'] at hb
        rw [hb]
        rfl
      rw [if_pos hbit]
      refine congrArg (· * u) ?_
      refine (sClosed_congr ?_).symm
      intro b hb
      conv_lhs => rw [hii]
      rw [Nat.testBit_two_pow_add_gt hb]

theorem coefList_mul_coefListH (us : List F) (hnz : ∀ u ∈ us, u ≠ 0) :
    ∀ i, i < 2 ^ us.length → (coefList us).getD i 0 * (coefListH us).getD i 0 = 1 := by
  induction us with
  | nil =>
    intro i hi
    have h0 : i = 0 := by simp at hi; omega
    subst h0
    simp [coefList, coefListH]
  | cons u rest ih =>
    intro i hi
    have hu : u ≠ 0 := hnz u (List.mem_cons_self u rest)
    have hrest : ∀ x ∈ rest, x ≠ 0 := fun x hx => hnz x (List.mem_cons_of_mem u hx)
    rw [List.length_cons, pow_succ] at hi
    by_cases hlt : i < 2 ^ rest.length
    · rw [coefList, coefListH,
        getD_append_lt _ _ _ (by rw [List.length_map, coefList_length]; exact hlt),
        getD_append_lt _ _ _ (by rw [List.length_map, coefListH_length]; exact hlt),
        getD_map_of_lt _ _ 0 _ (by rw [coefList_length]; exact hlt),
        getD_map_of_lt _ _ 0 _ (by rw [coefListH_length]; exact hlt)]
      calc (coefList rest).getD i 0 * u⁻¹ * ((coefListH rest).getD i 0 * u)
          = (coefList rest).getD i 0 * (coefListH rest).getD i 0 * (u⁻¹ * u) := by ring
        _ = 1 := by rw [ih hrest i hlt, inv_mul_cancel₀ hu, one_mul]
    · have hge : 2 ^ rest.length ≤ i := by omega
      have hi' : i - 2 ^ rest.length < 2 ^ rest.length := by omega
      rw [coefList, coefListH,
        getD_append_ge _ _ _
          (by rw [List.length_map, coefList_length]; exact hge)
          (by simp only [List.length_map, coefList_length]; omega),
        getD_append_ge _ _ _
          (by rw [List.length_map, coefListH_length]; exact hge)
          (by simp only [List.length_map, coefListH_length]; omega),
        List.length_map, List.length_map, coefList_length, coefListH_length,
        getD_map_of_lt _ _ 0 _ (by rw [coefList_length]; exact hi'),
        getD_map_of_lt _ _ 0 _ (by rw [coefListH_length]; exact hi')]
      calc (coefList rest).getD (i - 2 ^ rest.length) 0 * u
            * ((coefListH rest).getD (i - 2 ^ rest.length) 0 * u⁻¹)
          = (coefList rest).getD (i - 2 ^ rest.length) 0
            * (coefListH rest).getD (i - 2 ^ rest.length) 0 * (u⁻¹ * u) := by ring
        _ = 1 := by rw [ih hrest _ hi', inv_mul_cancel₀ hu, one_mul]

theorem coefListH_getD (us : List F) {i : Nat} (hi : i < 2 ^ us.length) :
    (coefListH us).getD i 0 = (coefList us).getD (2 ^ us.length - 1 - i) 0 := by
  rw [coefListH_eq_reverse,
    getD_reverse _ _ (by rw [coefList_length]; exact hi), coefList_length]

/-! ### Multiscalar-multiplication algebra -/

theorem inner_product_eq_dot {a b : List F} (h : a.length = b.length) :
    inner_product a b = some (dot a b) := by
  rw [inner_product, if_pos h, dot, List.sum_eq_foldl]

theorem msm_nil_left (points : List G) : msm ([] : List F) points = 0 := rfl

theorem msm_cons (s : F) (P : G) (scalars : List F) (points : List G) :
    msm (s :: scalars) (P :: points) = s • P + msm scalars points := by
  rw [msm, msm, List.zipWith_cons_cons, List.sum_cons]

theorem msm_singleton (c : F) (P : G) : msm [c] [P] = c • P := by
  rw [msm]
  simp

theorem msm_append {s1 : List F} {p1 : List G} (s2 : List F) (p2 : List G)
    (h : s1.length = p1.length) :
    msm (s1 ++ s2) (p1 ++ p2) = msm s1 p1 + msm s2 p2 := by
  rw [msm, msm, msm, List.zipWith_append _ _ _ _ _ h, List.sum_append]

theorem dot_append {a1 b1 : List F} (a2 b2 : List F) (h : a1.length = b1.length) :
    dot (a1 ++ a2) (b1 ++ b2) = dot a1 b1 + dot a2 b2 := by
  rw [dot, dot, dot, List.zipWith_append _ _ _ _ _ h, List.sum_append]

theorem smul_msm (c : F) (scalars : List F) (points : List G) :
    c • msm scalars points = msm (scalars.map (fun s => c * s)) points := by
  induction scalars generalizing points with
  | nil => simp [msm]
  | cons s ss ih =>
    cases points with
    | nil => simp [msm]
    | cons P ps =>
      rw [List.map_cons, msm_cons, msm_cons, smul_add, ← ih, mul_smul]

/-! ### One-round fold expansions -/

theorem dot_cons (x y : F) (xs ys : List F) :
    dot (x :: xs) (y :: ys) = x * y + dot xs ys := by
  rw [dot, dot, List.zipWith_cons_cons, List.sum_cons]

theorem msm_fold_ag (u : F) (hu : u ≠ 0) :
    ∀ (aL aR : List F) (Gl Gr : List G),
      aL.length = aR.length → aL.length = Gl.length → aL.length = Gr.length →
      msm (fold_a u aL aR) (fold_g u Gl Gr)
        = msm aL Gl + (u * u) • msm aL Gr + ((u⁻¹ * u⁻¹) • msm aR Gl + msm aR Gr) := by
  intro aL
  induction aL with
  | nil =>
    intro aR Gl Gr h1 h2 h3
    obtain rfl : aR = [] := List.length_eq_zero.mp h1.symm
    obtain rfl : Gl = [] := List.length_eq_zero.mp h2.symm
    obtain rfl : Gr = [] := List.length_eq_zero.mp h3.symm
    simp [fold_a, fold_g, msm]
  | cons x xs ih =>
    intro aR Gl Gr h1 h2 h3
    cases aR with
    | nil => simp at h1
    | cons y ys =>
      cases Gl with
      | nil => simp at h2
      | cons X Xs =>
        cases Gr with
        | nil => simp at h3
        | cons Y Ys =>
          simp only [List.length_cons, Nat.succ.injEq] at h1 h2 h3
          rw [fold_a, fold_g, List.zipWith_cons_cons, List.zipWith_cons_cons,
            msm_cons, msm_cons, msm_cons, msm_cons, msm_cons]
          rw [show List.zipWith (fun x y => x * u + y * u⁻¹) xs ys = fold_a u xs ys from rfl,
            show List.zipWith (fun X Y => u⁻¹ • X + u • Y) Xs Ys = fold_g u Xs Ys from rfl,
            ih ys Xs Ys h1 h2 h3]
          match_scalars
          all_goals try field_simp
          all_goals try ring

theorem msm_fold_bh (u : F) (hu : u ≠ 0) :
    ∀ (bL bR : List F) (Hl Hr : List G),
      bL.length = bR.length → bL.length = Hl.length → bL.length = Hr.length →
      msm (fold_b u bL bR) (fold_h u Hl Hr)
        = msm bL Hl + (u * u) • msm bR Hl + ((u⁻¹ * u⁻¹) • msm bL Hr + msm bR Hr) := by
  intro bL
  induction bL with
  | nil =>
    intro bR Hl Hr h1 h2 h3
    obtain rfl : bR = [] := List.length_eq_zero.mp h1.symm
    obtain rfl : Hl = [] := List.length_eq_zero.mp h2.symm
    obtain rfl : Hr = [] := List.length_eq_zero.mp h3.symm
    simp [fold_b, fold_h, msm]
  | cons x xs ih =>
    intro bR Hl Hr h1 h2 h3
    cases bR with
    | nil => simp at h1
    | cons y ys =>
      cases Hl with
      | nil => simp at h2
      | cons X Xs =>
        cases Hr with
        | nil => simp at h3
        | cons Y Ys =>
          simp only [List.length_cons, Nat.succ.injEq] at h1 h2 h3
          rw [fold_b, fold_h, List.zipWith_cons_cons, List.zipWith_cons_cons,
            msm_cons, msm_cons, msm_cons, msm_cons, msm_cons]
          rw [show List.zipWith (fun x y => x * u⁻¹ + y * u) xs ys = fold_b u xs ys from rfl,
            show List.zipWith (fun X Y => u • X + u⁻¹ • Y) Xs Ys = fold_h u Xs Ys from rfl,
            ih ys Xs Ys h1 h2 h3]
          match_scalars
          all_goals try field_simp
          all_goals try ring

theorem dot_fold_ab (u : F) (hu : u ≠ 0) :
    ∀ (aL aR bL bR : List F),
      aL.length = aR.length → aL.length = bL.length → aL.length = bR.length →
      dot (fold_a u aL aR) (fold_b u bL bR)
        = dot aL bL + (u * u) * dot aL bR + ((u⁻¹ * u⁻¹) * dot aR bL + dot aR bR) := by
  intro aL
  induction aL with
  | nil =>
    intro aR bL bR h1 h2 h3
    obtain rfl : aR = [] := List.length_eq_zero.mp h1.symm
    obtain rfl : bL = [] := List.length_eq_zero.mp h2.symm
    obtain rfl : bR = [] := List.length_eq_zero.mp h3.symm
    simp [fold_a, fold_b, dot]
  | cons x xs ih =>
    intro aR bL bR h1 h2 h3
    cases aR with
    | nil => simp at h1
    | cons y ys =>
      cases bL with
      | nil => simp at h2
      | cons w ws =>
        cases bR with
        | nil => simp at h3
        | cons z zs =>
          simp only [List.length_cons, Nat.succ.injEq] at h1 h2 h3
          rw [fold_a, fold_b, List.zipWith_cons_cons, List.zipWith_cons_cons, dot_cons]
          rw [show List.zipWith (fun x y => x * u + y * u⁻¹) xs ys = fold_a u xs ys from rfl,
            show List.zipWith (fun x y => x * u⁻¹ + y * u) ws zs = fold_b u ws zs from rfl,
            ih ys ws zs h1 h2 h3]
          rw [dot_cons, dot_cons, dot_cons, dot_cons]
          have hpt : (x * u + y * u⁻¹) * (w * u⁻¹ + z * u)
              = x * w + (u * u) * (x * z) + ((u⁻¹ * u⁻¹) * (y * w) + y * z) := by
            field_simp
            ring
          rw [hpt]
          ring

/-! ### `createLoop`: one-step unfolding and fuel irrelevance -/

theorem createLoop_zero (o : Oracle F G S) (Q : G) (n : Nat) (Gv Hv : List G)
    (av bv : List F) (Lacc Racc : List G) (st : S) :
    createLoop o Q 0 n Gv Hv av bv Lacc Racc st
      = CResult.ok ⟨Lacc, Racc, av.headD 0, bv.headD 0⟩ st := rfl

theorem createLoop_base (o : Oracle F G S) (Q : G) (fuel n : Nat) (hn : n ≤ 1)
    (Gv Hv : List G) (av bv : List F) (Lacc Racc : List G) (st : S) :
    createLoop o Q fuel n Gv Hv av bv Lacc Racc st
      = CResult.ok ⟨Lacc, Racc, av.headD 0, bv.headD 0⟩ st := by
  cases fuel with
  | zero => rfl
  | succ f => rw [createLoop, if_pos hn]

theorem createLoop_step (o : Oracle F G S) (Q : G) (f m : Nat) (hm : 1 ≤ m)
    (Gv Hv : List G) (av bv : List F) (Lacc Racc : List G) (st : S)
    (ha : av.length = 2 * m) (hb : bv.length = 2 * m) :
    createLoop o Q (f + 1) (2 * m) Gv Hv av bv Lacc Racc st
      = (let a_L := av.take m
         let a_R := av.drop m
         let b_L := bv.take m
         let b_R := bv.drop m
         let G_L := Gv.take m
         let G_R := Gv.drop m
         let H_L := Hv.take m
         let H_R := Hv.drop m
         let L := msm (a_L ++ b_R ++ [dot a_L b_R]) (G_R ++ H_L ++ [Q])
         let R := msm (a_R ++ b_L ++ [dot a_R b_L]) (G_L ++ H_R ++ [Q])
         let st2 := o.appendPoint (o.appendPoint st false L) true R
         let u := (o.challenge st2).1
         if u = 0 then CResult.err ProofError.FormatError
         else
           createLoop o Q f m (fold_g u G_L G_R) (fold_h u H_L H_R)
             (fold_a u a_L a_R) (fold_b u b_L b_R)
             (Lacc ++ [L]) (Racc ++ [R]) (o.challenge st2).2) := by
  have hmdiv : 2 * m / 2 = m := Nat.mul_div_cancel_left m (by decide)
  have hLR : (av.take m).length = (bv.drop m).length := by
    rw [List.length_take, List.length_drop, ha, hb]
    omega
  have hRL : (av.drop m).length = (bv.take m).length := by
    rw [List.length_take, List.length_drop, ha, hb]
    omega
  rw [createLoop, if_neg (by omega), hmdiv]
  simp only [inner_product_eq_dot hLR, inner_product_eq_dot hRL]

theorem createLoop_fuel (o : Oracle F G S) (Q : G) :
    ∀ (k fuel fuel' : Nat) (Gv Hv : List G) (av bv : List F) (Lacc Racc : List G) (st : S),
      k ≤ fuel → k ≤ fuel' →
      Gv.length = 2 ^ k → Hv.length = 2 ^ k → av.length = 2 ^ k → bv.length = 2 ^ k →
      createLoop o Q fuel (2 ^ k) Gv Hv av bv Lacc Racc st
        = createLoop o Q fuel' (2 ^ k) Gv Hv av bv Lacc Racc st := by
  intro k
  induction k with
  | zero =>
    intro fuel fuel' Gv Hv av bv Lacc Racc st _ _ _ _ _ _
    rw [createLoop_base o Q fuel (2 ^ 0) (by norm_num),
      createLoop_base o Q fuel' (2 ^ 0) (by norm_num)]
  | succ k ih =>
    intro fuel fuel' Gv Hv av bv Lacc Racc st hf hf' hG hH ha hb
    obtain ⟨f, rfl⟩ : ∃ f, fuel = f + 1 := ⟨fuel - 1, by omega⟩
    obtain ⟨f', rfl⟩ : ∃ f', fuel' = f' + 1 := ⟨fuel' - 1, by omega⟩
    have h2m : (2 : Nat) ^ (k + 1) = 2 * 2 ^ k := by rw [pow_succ]; ring
    have hm1 : 1 ≤ 2 ^ k := Nat.pos_pow_of_pos _ (by decide)
    rw [h2m] at hG hH ha hb ⊢
    rw [createLoop_step o Q f (2 ^ k) hm1 Gv Hv av bv Lacc Racc st ha hb,
      createLoop_step o Q f' (2 ^ k) hm1 Gv Hv av bv Lacc Racc st ha hb]
    simp only []
    split
    · rfl
    · exact ih f f' _ _ _ _ _ _ _ (by omega) (by omega)
        (by rw [fold_g, List.length_zipWith, List.length_take, List.length_drop, hG]; omega)
        (by rw [fold_h, List.length_zipWith, List.length_take, List.length_drop, hH]; omega)
        (by rw [fold_a, List.length_zipWith, List.length_take, List.length_drop, ha]; omega)
        (by rw [fold_b, List.length_zipWith, List.length_take, List.length_drop, hb]; omega)

/-! ### Factor twisting: the fused round 0 equals a plain round on twisted bases -/

theorem msm_zip_mul :
    ∀ (xs gs : List F) (Ps : List G),
      msm ((xs.zip gs).map (fun p => p.1 * p.2)) Ps
        = msm xs (List.zipWith (· • ·) gs Ps) := by
  intro xs
  induction xs with
  | nil => intro gs Ps; rfl
  | cons x xs ih =>
    intro gs Ps
    cases gs with
    | nil => cases Ps <;> rfl
    | cons g gs =>
      cases Ps with
      | nil => rfl
      | cons P Ps =>
        rw [List.zip_cons_cons, List.map_cons, List.zipWith_cons_cons,
          msm_cons, msm_cons, ih, mul_smul]

theorem zip_fused_g_eq (u : F) :
    ∀ (as bs : List F) (Xs Ys : List G),
      List.zipWith (fun (p : F × G) (q : F × G) => (u⁻¹ * p.1) • p.2 + (u * q.1) • q.2)
          (as.zip Xs) (bs.zip Ys)
        = fold_g u (List.zipWith (· • ·) as Xs) (List.zipWith (· • ·) bs Ys) := by
  intro as
  induction as with
  | nil => intro bs Xs Ys; rfl
  | cons a as ih =>
    intro bs Xs Ys
    cases Xs with
    | nil => rfl
    | cons X Xs =>
      cases bs with
      | nil => rfl
      | cons b bs =>
        cases Ys with
        | nil => simp [fold_g]
        | cons Y Ys =>
          rw [List.zip_cons_cons, List.zip_cons_cons, List.zipWith_cons_cons,
            List.zipWith_cons_cons, List.zipWith_cons_cons, fold_g,
            List.zipWith_cons_cons]
          rw [show List.zipWith (fun X Y => u⁻¹ • X + u • Y)
              (List.zipWith (· • ·) as Xs) (List.zipWith (· • ·) bs Ys)
            = fold_g u (List.zipWith (· • ·) as Xs) (List.zipWith (· • ·) bs Ys) from rfl]
          rw [ih, mul_smul, mul_smul]

theorem zip_fused_h_eq (u : F) :
    ∀ (as bs : List F) (Xs Ys : List G),
      List.zipWith (fun (p : F × G) (q : F × G) => (u * p.1) • p.2 + (u⁻¹ * q.1) • q.2)
          (as.zip Xs) (bs.zip Ys)
        = fold_h u (List.zipWith (· • ·) as Xs) (List.zipWith (· • ·) bs Ys) := by
  intro as
  induction as with
  | nil => intro bs Xs Ys; rfl
  | cons a as ih =>
    intro bs Xs Ys
    cases Xs with
    | nil => rfl
    | cons X Xs =>
      cases bs with
      | nil => rfl
      | cons b bs =>
        cases Ys with
        | nil => simp [fold_h]
        | cons Y Ys =>
          rw [List.zip_cons_cons, List.zip_cons_cons, List.zipWith_cons_cons,
            List.zipWith_cons_cons, List.zipWith_cons_cons, fold_h,
            List.zipWith_cons_cons]
          rw [show List.zipWith (fun X Y => u • X + u⁻¹ • Y)
              (List.zipWith (· • ·) as Xs) (List.zipWith (· • ·) bs Ys)
            = fold_h u (List.zipWith (· • ·) as Xs) (List.zipWith (· • ·) bs Ys) from rfl]
          rw [ih, mul_smul, mul_smul]

theorem fold_g_fused_eq (u : F) (gf : List F) (m : Nat) (XL XR : List G) :
    fold_g_fused u gf m XL XR
      = fold_g u (List.zipWith (· • ·) (gf.take m) XL)
          (List.zipWith (· • ·) (gf.drop m) XR) := by
  rw [fold_g_fused, zip_fused_g_eq]

theorem fold_h_fused_eq (u : F) (hf : List F) (m : Nat) (XL XR : List G) :
    fold_h_fused u hf m XL XR
      = fold_h u (List.zipWith (· • ·) (hf.take m) XL)
          (List.zipWith (· • ·) (hf.drop m) XR) := by
  rw [fold_h_fused, zip_fused_h_eq]

theorem take_zipWith_smul (gf : List F) (Gv : List G) (m : Nat) :
    (List.zipWith (· • ·) gf Gv).take m
      = List.zipWith (· • ·) (gf.take m) (Gv.take m) := List.take_zipWith

theorem drop_zipWith_smul (gf : List F) (Gv : List G) (m : Nat) :
    (List.zipWith (· • ·) gf Gv).drop m
      = List.zipWith (· • ·) (gf.drop m) (Gv.drop m) := List.drop_zipWith

theorem msm_fused_block (xs ys gs hs : List F) (Ps Qs : List G) (c : F) (Q : G)
    (hx : xs.length = gs.length) (hxP : xs.length = Ps.length)
    (hy : ys.length = hs.length) (hyQ : ys.length = Qs.length) :
    msm ((xs.zip gs).map (fun p => p.1 * p.2) ++ (ys.zip hs).map (fun p => p.1 * p.2) ++ [c])
        (Ps ++ Qs ++ [Q])
      = msm (xs ++ ys ++ [c])
          (List.zipWith (· • ·) gs Ps ++ List.zipWith (· • ·) hs Qs ++ [Q]) := by
  have l1 : ((xs.zip gs).map (fun p => p.1 * p.2)).length = Ps.length := by
    rw [List.length_map, List.length_zip]
    omega
  have l2 : ((ys.zip hs).map (fun p => p.1 * p.2)).length = Qs.length := by
    rw [List.length_map, List.length_zip]
    omega
  have l3 : xs.length = (List.zipWith (· • ·) gs Ps).length := by
    rw [List.length_zipWith]
    omega
  have l4 : ys.length = (List.zipWith (· • ·) hs Qs).length := by
    rw [List.length_zipWith]
    omega
  rw [msm_append [c] [Q] (by rw [List.length_append, List.length_append, l1, l2]),
    msm_append _ _ l1,
    msm_append [c] [Q] (by rw [List.length_append, List.length_append, l3, l4]),
    msm_append _ _ l3,
    msm_zip_mul, msm_zip_mul]

/-- `create` is the plain loop run on the pre-twisted bases
`G'ᵢ = gᵢ • Gᵢ`, `H'ᵢ = hᵢ • Hᵢ`: the fused round 0 computes exactly the
plain round on the twisted bases. -/
theorem create_eq_loop (o : Oracle F G S) (Q : G) (gf hf : List F) (Gv Hv : List G)
    (av bv : List F) (st : S) {k : Nat}
    (hG : Gv.length = 2 ^ k) (hH : Hv.length = 2 ^ k) (ha : av.length = 2 ^ k)
    (hb : bv.length = 2 ^ k) (hgf : gf.length = 2 ^ k) (hhf : hf.length = 2 ^ k) :
    create o Q gf hf Gv Hv av bv st
      = createLoop o Q (2 ^ k) (2 ^ k) (List.zipWith (· • ·) gf Gv)
          (List.zipWith (· • ·) hf Hv) av bv [] [] (o.domainSep st (2 ^ k)) := by
  have hcond : Hv.length = Gv.length ∧ av.length = Gv.length ∧ bv.length = Gv.length
      ∧ gf.length = Gv.length ∧ hf.length = Gv.length :=
    ⟨hH.trans hG.symm, ha.trans hG.symm, hb.trans hG.symm, hgf.trans hG.symm,
      hhf.trans hG.symm⟩
  have hpow : is_power_of_two Gv.length = true := by
    rw [hG]
    exact is_power_of_two_two_pow k
  rw [create]
  simp only []
  rw [if_pos hcond, if_pos hpow, hG]
  cases k with
  | zero =>
    rw [if_neg (by norm_num)]
    rw [createLoop_base _ _ _ _ (by norm_num), createLoop_base _ _ _ _ (by norm_num)]
  | succ k =>
    have h2 : (2 : Nat) ^ (k + 1) = 2 * 2 ^ k := by rw [pow_succ]; ring
    have hm1 : (1 : Nat) ≤ 2 ^ k := Nat.pos_pow_of_pos _ (by decide)
    rw [if_pos (by omega : (2 : Nat) ^ (k + 1) ≠ 1), h2]
    have hdiv : 2 * 2 ^ k / 2 = 2 ^ k := Nat.mul_div_cancel_left _ (by decide)
    rw [hdiv]
    rw [h2] at hG hH ha hb hgf hhf
    -- resolve the two inner products
    have hLR : (av.take (2 ^ k)).length = (bv.drop (2 ^ k)).length := by
      rw [List.length_take, List.length_drop, ha, hb]
      omega
    have hRL : (av.drop (2 ^ k)).length = (bv.take (2 ^ k)).length := by
      rw [List.length_take, List.length_drop, ha, hb]
      omega
    simp only [inner_product_eq_dot hLR, inner_product_eq_dot hRL]
    -- identify the fused L and R with the plain twisted ones
    have hgfdt : (gf.drop (2 ^ k)).take (2 ^ k) = gf.drop (2 ^ k) :=
      List.take_of_length_le (by rw [List.length_drop, hgf]; omega)
    have hhfdt : (hf.drop (2 ^ k)).take (2 ^ k) = hf.drop (2 ^ k) :=
      List.take_of_length_le (by rw [List.length_drop, hhf]; omega)
    have hL : msm (((av.take (2 ^ k)).zip ((gf.drop (2 ^ k)).take (2 ^ k))).map
            (fun p => p.1 * p.2)
          ++ ((bv.drop (2 ^ k)).zip (hf.take (2 ^ k))).map (fun p => p.1 * p.2)
          ++ [dot (av.take (2 ^ k)) (bv.drop (2 ^ k))])
        (Gv.drop (2 ^ k) ++ Hv.take (2 ^ k) ++ [Q])
      = msm (av.take (2 ^ k) ++ bv.drop (2 ^ k) ++ [dot (av.take (2 ^ k)) (bv.drop (2 ^ k))])
          ((List.zipWith (· • ·) gf Gv).drop (2 ^ k)
            ++ (List.zipWith (· • ·) hf Hv).take (2 ^ k) ++ [Q]) := by
      rw [hgfdt, drop_zipWith_smul, take_zipWith_smul]
      exact msm_fused_block _ _ _ _ _ _ _ _
        (by rw [List.length_take, List.length_drop, ha, hgf]; omega)
        (by rw [List.length_take, List.length_drop, ha, hG]; omega)
        (by rw [List.length_take, List.length_drop, hb, hhf]; omega)
        (by rw [List.length_take, List.length_drop, hb, hH]; omega)
    have hR : msm (((av.drop (2 ^ k)).zip (gf.take (2 ^ k))).map (fun p => p.1 * p.2)
          ++ ((bv.take (2 ^ k)).zip ((hf.drop (2 ^ k)).take (2 ^ k))).map (fun p => p.1 * p.2)
          ++ [dot (av.drop (2 ^ k)) (bv.take (2 ^ k))])
        (Gv.take (2 ^ k) ++ Hv.drop (2 ^ k) ++ [Q])
      = msm (av.drop (2 ^ k) ++ bv.take (2 ^ k) ++ [dot (av.drop (2 ^ k)) (bv.take (2 ^ k))])
          ((List.zipWith (· • ·) gf Gv).take (2 ^ k)
            ++ (List.zipWith (· • ·) hf Hv).drop (2 ^ k) ++ [Q]) := by
      rw [hhfdt, drop_zipWith_smul, take_zipWith_smul]
      exact msm_fused_block _ _ _ _ _ _ _ _
        (by rw [List.length_take, List.length_drop, ha, hgf]; omega)
        (by rw [List.length_take, List.length_drop, ha, hG]; omega)
        (by rw [List.length_take, List.length_drop, hb, hhf]; omega)
        (by rw [List.length_take, List.length_drop, hb, hH]; omega)
    rw [hL, hR]
    -- unfold one step of the twisted loop on the right
    have hGtlen : (List.zipWith (· • ·) gf Gv).length = 2 * 2 ^ k := by
      rw [List.length_zipWith, hgf, hG]
      omega
    have hHtlen : (List.zipWith (· • ·) hf Hv).length = 2 * 2 ^ k := by
      rw [List.length_zipWith, hhf, hH]
      omega
    have hfuel := createLoop_fuel o Q (k + 1) (2 ^ (k + 1)) (2 ^ k + 1)
      (List.zipWith (· • ·) gf Gv) (List.zipWith (· • ·) hf Hv) av bv [] []
      (o.domainSep st (2 * 2 ^ k))
      (Nat.le_of_lt (Nat.lt_two_pow (k + 1)))
      (by have := Nat.lt_two_pow k; omega)
      (by rw [h2]; exact hGtlen) (by rw [h2]; exact hHtlen)
      (by rw [h2]; exact ha) (by rw [h2]; exact hb)
    rw [h2] at hfuel
    rw [hfuel, createLoop_step o Q (2 ^ k) (2 ^ k) hm1 _ _ av bv [] [] _ ha hb]
    simp only []
    -- both sides branch on the same challenge now
    split
    · rfl
    · rw [fold_g_fused_eq, fold_h_fused_eq]
      simp only [take_zipWith_smul, drop_zipWith_smul, List.nil_append]

/-! ### The fold coefficients track the folded bases -/

theorem msm_fold_g_coef (u : F) :
    ∀ (cs : List F) (Xl Xr : List G),
      cs.length = Xl.length → cs.length = Xr.length →
      msm cs (fold_g u Xl Xr)
        = msm (cs.map (· * u⁻¹)) Xl + msm (cs.map (· * u)) Xr := by
  intro cs
  induction cs with
  | nil =>
    intro Xl Xr h1 h2
    obtain rfl : Xl = [] := List.length_eq_zero.mp h1.symm
    obtain rfl : Xr = [] := List.length_eq_zero.mp h2.symm
    simp [msm, fold_g]
  | cons c cs ih =>
    intro Xl Xr h1 h2
    cases Xl with
    | nil => simp at h1
    | cons X Xs =>
      cases Xr with
      | nil => simp at h2
      | cons Y Ys =>
        simp only [List.length_cons, Nat.succ.injEq] at h1 h2
        rw [fold_g, List.zipWith_cons_cons, msm_cons, List.map_cons, List.map_cons,
          msm_cons, msm_cons]
        rw [show List.zipWith (fun X Y => u⁻¹ • X + u • Y) Xs Ys = fold_g u Xs Ys from rfl,
          ih Xs Ys h1 h2]
        rw [smul_add, smul_smul, smul_smul]
        abel

theorem msm_fold_h_coef (u : F) :
    ∀ (cs : List F) (Xl Xr : List G),
      cs.length = Xl.length → cs.length = Xr.length →
      msm cs (fold_h u Xl Xr)
        = msm (cs.map (· * u)) Xl + msm (cs.map (· * u⁻¹)) Xr := by
  intro cs
  induction cs with
  | nil =>
    intro Xl Xr h1 h2
    obtain rfl : Xl = [] := List.length_eq_zero.mp h1.symm
    obtain rfl : Xr = [] := List.length_eq_zero.mp h2.symm
    simp [msm, fold_h]
  | cons c cs ih =>
    intro Xl Xr h1 h2
    cases Xl with
    | nil => simp at h1
    | cons X Xs =>
      cases Xr with
      | nil => simp at h2
      | cons Y Ys =>
        simp only [List.length_cons, Nat.succ.injEq] at h1 h2
        rw [fold_h, List.zipWith_cons_cons, msm_cons, List.map_cons, List.map_cons,
          msm_cons, msm_cons]
        rw [show List.zipWith (fun X Y => u • X + u⁻¹ • Y) Xs Ys = fold_h u Xs Ys from rfl,
          ih Xs Ys h1 h2]
        rw [smul_add, smul_smul, smul_smul]
        abel

theorem msm_coefList_step (u : F) (us : List F) (Gv : List G)
    (hG : Gv.length = 2 * 2 ^ us.length) :
    msm (coefList (u :: us)) Gv
      = msm (coefList us) (fold_g u (Gv.take (2 ^ us.length)) (Gv.drop (2 ^ us.length))) := by
  have hA : ((coefList us).map (· * u⁻¹)).length = (Gv.take (2 ^ us.length)).length := by
    rw [List.length_map, coefList_length, List.length_take, hG]
    omega
  conv_lhs => rw [coefList, ← List.take_append_drop (2 ^ us.length) Gv]
  rw [msm_append _ _ hA,
    msm_fold_g_coef u (coefList us) _ _
      (by rw [coefList_length, List.length_take, hG]; omega)
      (by rw [coefList_length, List.length_drop, hG]; omega)]

theorem msm_coefListH_step (u : F) (us : List F) (Hv : List G)
    (hH : Hv.length = 2 * 2 ^ us.length) :
    msm (coefListH (u :: us)) Hv
      = msm (coefListH us) (fold_h u (Hv.take (2 ^ us.length)) (Hv.drop (2 ^ us.length))) := by
  have hA : ((coefListH us).map (· * u)).length = (Hv.take (2 ^ us.length)).length := by
    rw [List.length_map, coefListH_length, List.length_take, hH]
    omega
  conv_lhs => rw [coefListH, ← List.take_append_drop (2 ^ us.length) Hv]
  rw [msm_append _ _ hA,
    msm_fold_h_coef u (coefListH us) _ _
      (by rw [coefListH_length, List.length_take, hH]; omega)
      (by rw [coefListH_length, List.length_drop, hH]; omega)]

/-! ### The one-round telescoping relation -/

theorem round_relation (u : F) (hu : u ≠ 0) (m : Nat)
    (Gv Hv : List G) (av bv : List F) (Q : G)
    (hG : Gv.length = 2 * m) (hH : Hv.length = 2 * m) (ha : av.length = 2 * m)
    (hb : bv.length = 2 * m) :
    msm (fold_a u (av.take m) (av.drop m)) (fold_g u (Gv.take m) (Gv.drop m))
      + msm (fold_b u (bv.take m) (bv.drop m)) (fold_h u (Hv.take m) (Hv.drop m))
      + dot (fold_a u (av.take m) (av.drop m)) (fold_b u (bv.take m) (bv.drop m)) • Q
    = msm av Gv + msm bv Hv + dot av bv • Q
      + (u * u) • msm (av.take m ++ bv.drop m ++ [dot (av.take m) (bv.drop m)])
          (Gv.drop m ++ Hv.take m ++ [Q])
      + (u⁻¹ * u⁻¹) • msm (av.drop m ++ bv.take m ++ [dot (av.drop m) (bv.take m)])
          (Gv.take m ++ Hv.drop m ++ [Q]) := by
  have lt : ∀ (l : List F), l.length = 2 * m → (l.take m).length = m := by
    intro l hl
    rw [List.length_take, hl]
    omega
  have ld : ∀ (l : List F), l.length = 2 * m → (l.drop m).length = m := by
    intro l hl
    rw [List.length_drop, hl]
    omega
  have gt : ∀ (l : List G), l.length = 2 * m → (l.take m).length = m := by
    intro l hl
    rw [List.length_take, hl]
    omega
  have gd : ∀ (l : List G), l.length = 2 * m → (l.drop m).length = m := by
    intro l hl
    rw [List.length_drop, hl]
    omega
  rw [msm_fold_ag u hu _ _ _ _ (by rw [lt av ha, ld av ha]) (by rw [lt av ha, gt Gv hG])
      (by rw [lt av ha, gd Gv hG]),
    msm_fold_bh u hu _ _ _ _ (by rw [lt bv hb, ld bv hb]) (by rw [lt bv hb, gt Hv hH])
      (by rw [lt bv hb, gd Hv hH]),
    dot_fold_ab u hu _ _ _ _ (by rw [lt av ha, ld av ha]) (by rw [lt av ha, lt bv hb])
      (by rw [lt av ha, ld bv hb])]
  have hsplitG : msm av Gv = msm (av.take m) (Gv.take m) + msm (av.drop m) (Gv.drop m) := by
    conv_lhs => rw [← List.take_append_drop m av, ← List.take_append_drop m Gv]
    rw [msm_append _ _ (by rw [lt av ha, gt Gv hG])]
  have hsplitH : msm bv Hv = msm (bv.take m) (Hv.take m) + msm (bv.drop m) (Hv.drop m) := by
    conv_lhs => rw [← List.take_append_drop m bv, ← List.take_append_drop m Hv]
    rw [msm_append _ _ (by rw [lt bv hb, gt Hv hH])]
  have hsplitD : dot av bv = dot (av.take m) (bv.take m) + dot (av.drop m) (bv.drop m) := by
    conv_lhs => rw [← List.take_append_drop m av, ← List.take_append_drop m bv]
    rw [dot_append _ _ (by rw [lt av ha, lt bv hb])]
  have hLsplit : msm (av.take m ++ bv.drop m ++ [dot (av.take m) (bv.drop m)])
      (Gv.drop m ++ Hv.take m ++ [Q])
      = msm (av.take m) (Gv.drop m) + msm (bv.drop m) (Hv.take m)
        + dot (av.take m) (bv.drop m) • Q := by
    rw [msm_append _ _ (by rw [List.length_append, List.length_append, lt av ha,
        ld bv hb, gd Gv hG, gt Hv hH]),
      msm_append _ _ (by rw [lt av ha, gd Gv hG]), msm_singleton]
  have hRsplit : msm (av.drop m ++ bv.take m ++ [dot (av.drop m) (bv.take m)])
      (Gv.take m ++ Hv.drop m ++ [Q])
      = msm (av.drop m) (Gv.take m) + msm (bv.take m) (Hv.drop m)
        + dot (av.drop m) (bv.take m) • Q := by
    rw [msm_append _ _ (by rw [List.length_append, List.length_append, ld av ha,
        lt bv hb, gt Gv hG, gd Hv hH]),
      msm_append _ _ (by rw [ld av ha, gt Gv hG]), msm_singleton]
  rw [hsplitG, hsplitH, hsplitD, hLsplit, hRsplit]
  match_scalars
  all_goals try field_simp
  all_goals try ring

/-! ### The main loop invariant -/

/-- Everything the claims need about a run of the plain loop: it never
panics; it fails (with `FormatError`) only when the transcript squeezes a
zero challenge; on success the proof extends the accumulators by one `L`/`R`
pair per round, the verifier's challenge replay reproduces the prover's
challenges (when no commitment is the identity), and the telescoped
verification relation holds. -/
theorem createLoop_spec (o : Oracle F G S) (Q : G) :
    ∀ (k fuel : Nat) (Gv Hv : List G) (av bv : List F) (Lacc Racc : List G) (st : S),
      k ≤ fuel →
      Gv.length = 2 ^ k → Hv.length = 2 ^ k → av.length = 2 ^ k → bv.length = 2 ^ k →
      (∃ st0, (o.challenge st0).1 = 0 ∧
        createLoop o Q fuel (2 ^ k) Gv Hv av bv Lacc Racc st
          = CResult.err ProofError.FormatError)
      ∨ (∃ us Ls Rs pr st',
          createLoop o Q fuel (2 ^ k) Gv Hv av bv Lacc Racc st = CResult.ok pr st' ∧
          us.length = k ∧ Ls.length = k ∧ Rs.length = k ∧
          pr.L_vec = Lacc ++ Ls ∧ pr.R_vec = Racc ++ Rs ∧
          (∀ x ∈ us, x ≠ 0) ∧
          ((∀ P ∈ Ls, P ≠ 0) → (∀ P ∈ Rs, P ≠ 0) →
            vsChallenges o (Ls.zip Rs) st = Except.ok (us, st')) ∧
          pr.a • msm (coefList us) Gv + pr.b • msm (coefListH us) Hv + (pr.a * pr.b) • Q
            = msm av Gv + msm bv Hv + dot av bv • Q
              + msm (us.map fun x => x * x) Ls + msm (us.map fun x => x⁻¹ * x⁻¹) Rs) := by
  intro k
  induction k with
  | zero =>
    intro fuel Gv Hv av bv Lacc Racc st _ hG hH ha hb
    right
    obtain ⟨G0, rfl⟩ : ∃ G0, Gv = [G0] := List.length_eq_one.mp (by simpa using hG)
    obtain ⟨H0, rfl⟩ : ∃ H0, Hv = [H0] := List.length_eq_one.mp (by simpa using hH)
    obtain ⟨a0, rfl⟩ : ∃ a0, av = [a0] := List.length_eq_one.mp (by simpa using ha)
    obtain ⟨b0, rfl⟩ : ∃ b0, bv = [b0] := List.length_eq_one.mp (by simpa using hb)
    refine ⟨[], [], [], ⟨Lacc, Racc, a0, b0⟩, st,
      createLoop_base o Q fuel (2 ^ 0) (by norm_num) _ _ _ _ _ _ _,
      rfl, rfl, rfl, by simp, by simp, by simp, fun _ _ => rfl, ?_⟩
    simp only [coefList, coefListH, msm, dot, List.zipWith_cons_cons, List.zipWith_nil_right,
      List.sum_cons, List.sum_nil, List.map_nil, add_zero, one_smul]
  | succ k ih =>
    intro fuel Gv Hv av bv Lacc Racc st hfuel hG hH ha hb
    obtain ⟨f, rfl⟩ : ∃ f, fuel = f + 1 := ⟨fuel - 1, by omega⟩
    have h2 : (2 : Nat) ^ (k + 1) = 2 * 2 ^ k := by rw [pow_succ]; ring
    have hm1 : (1 : Nat) ≤ 2 ^ k := Nat.pos_pow_of_pos _ (by decide)
    rw [h2] at hG hH ha hb ⊢
    rw [createLoop_step o Q f (2 ^ k) hm1 Gv Hv av bv Lacc Racc st ha hb]
    simp only []
    set aL := av.take (2 ^ k) with haL
    set aR := av.drop (2 ^ k) with haR
    set bL := bv.take (2 ^ k) with hbL
    set bR := bv.drop (2 ^ k) with hbR
    set Gl := Gv.take (2 ^ k) with hGl
    set Gr := Gv.drop (2 ^ k) with hGr
    set Hl := Hv.take (2 ^ k) with hHl
    set Hr := Hv.drop (2 ^ k) with hHr
    set L := msm (aL ++ bR ++ [dot aL bR]) (Gr ++ Hl ++ [Q]) with hLdef
    set R := msm (aR ++ bL ++ [dot aR bL]) (Gl ++ Hr ++ [Q]) with hRdef
    set st2 := o.appendPoint (o.appendPoint st false L) true R with hst2
    by_cases hu : (o.challenge st2).1 = 0
    · left
      exact ⟨st2, hu, by rw [if_pos hu]⟩
    · rw [if_neg hu]
      have hlen : ∀ {α : Type} (l : List α), l.length = 2 * 2 ^ k →
          (l.take (2 ^ k)).length = 2 ^ k ∧ (l.drop (2 ^ k)).length = 2 ^ k := by
        intro α l hl
        constructor
        · rw [List.length_take, hl]; omega
        · rw [List.length_drop, hl]; omega
      rcases ih f (fold_g (o.challenge st2).1 Gl Gr) (fold_h (o.challenge st2).1 Hl Hr)
          (fold_a (o.challenge st2).1 aL aR) (fold_b (o.challenge st2).1 bL bR)
          (Lacc ++ [L]) (Racc ++ [R]) (o.challenge st2).2 (by omega)
          (by rw [fold_g, List.length_zipWith, (hlen Gv hG).1, (hlen Gv hG).2]; omega)
          (by rw [fold_h, List.length_zipWith, (hlen Hv hH).1, (hlen Hv hH).2]; omega)
          (by rw [fold_a, List.length_zipWith, (hlen av ha).1, (hlen av ha).2]; omega)
          (by rw [fold_b, List.length_zipWith, (hlen bv hb).1, (hlen bv hb).2]; omega)
        with ⟨st0, hz, herr⟩ | ⟨us, Ls, Rs, pr, st', hok, hlus, hlLs, hlRs, hLv, hRv, hnz,
          hreplay, hrel⟩
      · exact Or.inl ⟨st0, hz, herr⟩
      · right
        refine ⟨(o.challenge st2).1 :: us, L :: Ls, R :: Rs, pr, st', hok,
          by simp [hlus], by simp [hlLs], by simp [hlRs], ?_, ?_, ?_, ?_, ?_⟩
        · rw [hLv, List.append_assoc, List.singleton_append]
        · rw [hRv, List.append_assoc, List.singleton_append]
        · intro x hx
          rcases List.mem_cons.mp hx with rfl | hx'
          · exact hu
          · exact hnz x hx'
        · intro hLs hRs
          have hL0 : L ≠ 0 := hLs L (List.mem_cons_self _ _)
          have hR0 : R ≠ 0 := hRs R (List.mem_cons_self _ _)
          rw [List.zip_cons_cons, vsChallenges, if_neg hL0, if_neg hR0]
          simp only []
          rw [hreplay (fun P hP => hLs P (List.mem_cons_of_mem _ hP))
            (fun P hP => hRs P (List.mem_cons_of_mem _ hP))]
        · rw [msm_coefList_step _ _ _ (by rw [hlus]; exact hG),
            msm_coefListH_step _ _ _ (by rw [hlus]; exact hH), hlus]
          rw [hrel]
          rw [List.map_cons, List.map_cons, msm_cons, msm_cons]
          rw [round_relation (o.challenge st2).1 hu (2 ^ k) Gv Hv av bv Q hG hH ha hb]
          abel

/-- The `create` entry point inherits the loop invariant, over the twisted
bases `gᵢ • Gᵢ`, `hᵢ • Hᵢ`. -/
theorem create_spec (o : Oracle F G S) (Q : G) (gf hf : List F) (Gv Hv : List G)
    (av bv : List F) (st : S) {k : Nat}
    (hG : Gv.length = 2 ^ k) (hH : Hv.length = 2 ^ k) (ha : av.length = 2 ^ k)
    (hb : bv.length = 2 ^ k) (hgf : gf.length = 2 ^ k) (hhf : hf.length = 2 ^ k) :
    (∃ st0, (o.challenge st0).1 = 0 ∧
      create o Q gf hf Gv Hv av bv st = CResult.err ProofError.FormatError)
    ∨ (∃ us pr st',
        create o Q gf hf Gv Hv av bv st = CResult.ok pr st' ∧
        us.length = k ∧ pr.L_vec.length = k ∧ pr.R_vec.length = k ∧
        (∀ x ∈ us, x ≠ 0) ∧
        ((∀ P ∈ pr.L_vec, P ≠ 0) → (∀ P ∈ pr.R_vec, P ≠ 0) →
          vsChallenges o (pr.L_vec.zip pr.R_vec) (o.domainSep st (2 ^ k))
            = Except.ok (us, st')) ∧
        pr.a • msm (coefList us) (List.zipWith (· • ·) gf Gv)
            + pr.b • msm (coefListH us) (List.zipWith (· • ·) hf Hv) + (pr.a * pr.b) • Q
          = msm av (List.zipWith (· • ·) gf Gv) + msm bv (List.zipWith (· • ·) hf Hv)
              + dot av bv • Q
            + msm (us.map fun x => x * x) pr.L_vec
            + msm (us.map fun x => x⁻¹ * x⁻¹) pr.R_vec) := by
  rw [create_eq_loop o Q gf hf Gv Hv av bv st hG hH ha hb hgf hhf]
  have hGt : (List.zipWith (· • ·) gf Gv).length = 2 ^ k := by
    rw [List.length_zipWith, hgf, hG]
    omega
  have hHt : (List.zipWith (· • ·) hf Hv).length = 2 ^ k := by
    rw [List.length_zipWith, hhf, hH]
    omega
  rcases createLoop_spec o Q k (2 ^ k) _ _ av bv [] [] (o.domainSep st (2 ^ k))
      (Nat.le_of_lt (Nat.lt_two_pow k)) hGt hHt ha hb
    with ⟨st0, hz, herr⟩ | ⟨us, Ls, Rs, pr, st', hok, hlus, hlLs, hlRs, hLv, hRv, hnz,
      hreplay, hrel⟩
  · exact Or.inl ⟨st0, hz, herr⟩
  · right
    rw [List.nil_append] at hLv hRv
    refine ⟨us, pr, st', hok, hlus, by rw [hLv]; exact hlLs, by rw [hRv]; exact hlRs,
      hnz, ?_, ?_⟩
    · rw [hLv, hRv]
      exact hreplay
    · rw [hLv, hRv]
      exact hrel

/-! ### Verifier-side computation lemmas -/

theorem msm_neg_map (xs : List F) (Ps : List G) :
    msm (xs.map (fun x => -x)) Ps = - msm xs Ps := by
  induction xs generalizing Ps with
  | nil => simp [msm]
  | cons x xs ih =>
    cases Ps with
    | nil => simp [msm]
    | cons P ps =>
      rw [List.map_cons, msm_cons, msm_cons, ih, neg_smul, neg_add]

theorem msm_g_branch (a : F) :
    ∀ (gf s : List F) (Gv : List G),
      msm ((gf.zip s).map (fun p => (a * p.2) * p.1)) Gv
        = a • msm s (List.zipWith (· • ·) gf Gv) := by
  intro gf
  induction gf with
  | nil => intro s Gv; simp [msm]
  | cons g gf ih =>
    intro s Gv
    cases s with
    | nil => simp [msm]
    | cons x s =>
      cases Gv with
      | nil => simp [msm]
      | cons P Ps =>
        rw [List.zip_cons_cons, List.map_cons, List.zipWith_cons_cons, msm_cons, msm_cons,
          ih, smul_add]
        simp [smul_smul, mul_assoc]

/-- The verifier's `s` list is exactly the fold-coefficient list. -/
theorem sList_eq_coefList (us : List F) :
    (List.range (2 ^ us.length)).map
        (sElem (us.map (fun u => u * u)) us.length ((us.map (·⁻¹)).foldl (· * ·) 1))
      = coefList us := by
  refine List.ext_getElem (by rw [List.length_map, List.length_range, coefList_length]) ?_
  intro i h1 h2
  rw [List.length_map, List.length_range] at h1
  have hc : (coefList us)[i] = (coefList us).getD i 0 :=
    (List.getD_eq_getElem _ _ h2).symm
  rw [hc, coefList_getD us i h1, ← sElem_eq_sClosed us i h1]
  rw [List.getElem_map, List.getElem_range]

theorem verification_scalars_eval (o : Oracle F G S) (pr : InnerProductProof F G) (n : Nat)
    (st : S) (hk : pr.L_vec.length < 32) (hn : n = 2 ^ pr.L_vec.length)
    {us : List F} {st' : S}
    (hch : vsChallenges o (pr.L_vec.zip pr.R_vec) (o.domainSep st n) = .ok (us, st'))
    (hnz : ∀ x ∈ us, x ≠ 0) :
    verification_scalars o pr n st
      = .ok (us.map (fun u => u * u), (us.map (·⁻¹)).map (fun u => u * u),
          (List.range n).map (sElem (us.map (fun u => u * u)) pr.L_vec.length
            ((us.map (·⁻¹)).foldl (· * ·) 1)), st') := by
  rw [verification_scalars]
  simp only []
  rw [if_neg (by omega), if_neg (fun hne => hne hn), hch]
  simp only []
  rw [if_neg (by
    rintro ⟨x, hx, h0⟩
    exact hnz x hx h0)]

/-- Completeness core: an honest `create` run whose commitments avoid the
identity point verifies against the honestly computed `P`. -/
theorem verify_create_complete (o : Oracle F G S) (Q : G) (gf hf : List F)
    (Gv Hv : List G) (av bv : List F) (st : S) {k : Nat}
    (hG : Gv.length = 2 ^ k) (hH : Hv.length = 2 ^ k) (ha : av.length = 2 ^ k)
    (hb : bv.length = 2 ^ k) (hgf : gf.length = 2 ^ k) (hhf : hf.length = 2 ^ k)
    (hk32 : k < 32) {pr : InnerProductProof F G} {st' : S}
    (hok : create o Q gf hf Gv Hv av bv st = CResult.ok pr st')
    (hL : ∀ P ∈ pr.L_vec, P ≠ 0) (hR : ∀ P ∈ pr.R_vec, P ≠ 0) :
    verify o pr (2 ^ k) gf hf (honestP gf hf Gv Hv av bv Q) Q Gv Hv st
      = .ok () := by
  rcases create_spec o Q gf hf Gv Hv av bv st hG hH ha hb hgf hhf
    with ⟨st0, hz, herr⟩ | ⟨us, pr', st'', hok', hlus, hlLs, hlRs, hnz, hreplay, hrel⟩
  · rw [herr] at hok
    exact absurd hok (by simp)
  · rw [hok] at hok'
    injection hok' with hp hs
    subst hp
    subst hs
    have hvs := verification_scalars_eval o pr (2 ^ k) st (by omega)
      (by rw [hlLs]) (hreplay hL hR) hnz
    rw [verify, hvs]
    simp only []
    have hs : (List.range (2 ^ k)).map
        (sElem (us.map fun u => u * u) pr.L_vec.length ((us.map (·⁻¹)).foldl (· * ·) 1))
        = coefList us := by
      rw [hlLs, ← hlus]
      exact sList_eq_coefList us
    rw [hs]
    have hslen : (coefList us).length = 2 ^ k := by
      rw [coefList_length, hlus]
    have htake : ((gf.zip (coefList us)).map (fun p => (pr.a * p.2) * p.1)).take Gv.length
        = (gf.zip (coefList us)).map (fun p => (pr.a * p.2) * p.1) :=
      List.take_of_length_le (by
        rw [List.length_map, List.length_zip, hslen, hgf, hG]
        omega)
    rw [htake]
    have hinv2 : (us.map (·⁻¹)).map (fun u => u * u) = us.map (fun x => x⁻¹ * x⁻¹) := by
      rw [List.map_map]
      rfl
    have hsplit : msm ([pr.a * pr.b]
          ++ (gf.zip (coefList us)).map (fun p => (pr.a * p.2) * p.1)
          ++ (hf.zip (coefList us).reverse).map (fun p => (pr.b * p.2) * p.1)
          ++ ((us.map fun u => u * u).map fun x => -x)
          ++ (((us.map (·⁻¹)).map fun u => u * u).map fun x => -x))
        ([Q] ++ Gv ++ Hv ++ pr.L_vec ++ pr.R_vec)
        = (pr.a * pr.b) • Q
          + pr.a • msm (coefList us) (List.zipWith (· • ·) gf Gv)
          + pr.b • msm (coefList us).reverse (List.zipWith (· • ·) hf Hv)
          + (- msm (us.map fun u => u * u) pr.L_vec)
          + (- msm (us.map fun x => x⁻¹ * x⁻¹) pr.R_vec) := by
      rw [msm_append _ _ (by
          simp only [List.length_append, List.length_map, List.length_zip,
            List.length_cons, List.length_nil, hslen, List.length_reverse]
          rw [hgf, hG, hhf, hH, hlus, hlLs]
          omega),
        msm_append _ _ (by
          simp only [List.length_append, List.length_map, List.length_zip,
            List.length_cons, List.length_nil, hslen, List.length_reverse]
          rw [hgf, hG, hhf, hH]
          omega),
        msm_append _ _ (by
          simp only [List.length_append, List.length_map, List.length_zip,
            List.length_cons, List.length_nil, hslen]
          rw [hgf, hG]
          omega),
        msm_append _ _ (by simp),
        msm_singleton, msm_g_branch, msm_g_branch, msm_neg_map, msm_neg_map, hinv2]
    rw [hsplit]
    have hrev : (coefList us).reverse = coefListH us := (coefListH_eq_reverse us).symm
    rw [hrev]
    have hfinal : (pr.a * pr.b) • Q
          + pr.a • msm (coefList us) (List.zipWith (· • ·) gf Gv)
          + pr.b • msm (coefListH us) (List.zipWith (· • ·) hf Hv)
          + (- msm (us.map fun u => u * u) pr.L_vec)
          + (- msm (us.map fun x => x⁻¹ * x⁻¹) pr.R_vec)
        = honestP gf hf Gv Hv av bv Q := by
      rw [honestP]
      calc (pr.a * pr.b) • Q
            + pr.a • msm (coefList us) (List.zipWith (· • ·) gf Gv)
            + pr.b • msm (coefListH us) (List.zipWith (· • ·) hf Hv)
            + (- msm (us.map fun u => u * u) pr.L_vec)
            + (- msm (us.map fun x => x⁻¹ * x⁻¹) pr.R_vec)
          = (pr.a • msm (coefList us) (List.zipWith (· • ·) gf Gv)
              + pr.b • msm (coefListH us) (List.zipWith (· • ·) hf Hv)
              + (pr.a * pr.b) • Q)
            - msm (us.map fun x => x * x) pr.L_vec
            - msm (us.map fun x => x⁻¹ * x⁻¹) pr.R_vec := by abel
        _ = (msm av (List.zipWith (· • ·) gf Gv) + msm bv (List.zipWith (· • ·) hf Hv)
              + dot av bv • Q
              + msm (us.map fun x => x * x) pr.L_vec
              + msm (us.map fun x => x⁻¹ * x⁻¹) pr.R_vec)
            - msm (us.map fun x => x * x) pr.L_vec
            - msm (us.map fun x => x⁻¹ * x⁻¹) pr.R_vec := by rw [hrel]
        _ = msm av (List.zipWith (· • ·) gf Gv) + msm bv (List.zipWith (· • ·) hf Hv)
            + dot av bv • Q := by abel
    rw [hfinal, if_pos rfl]

/-! ### `create`: panic and error characterization -/

theorem create_panic_iff (o : Oracle F G S) (Q : G) (gf hf : List F) (Gv Hv : List G)
    (av bv : List F) (st : S) :
    create o Q gf hf Gv Hv av bv st = CResult.panic
      ↔ ¬(Hv.length = Gv.length ∧ av.length = Gv.length ∧ bv.length = Gv.length
          ∧ gf.length = Gv.length ∧ hf.length = Gv.length
          ∧ is_power_of_two Gv.length = true) := by
  constructor
  · intro hpanic hpre
    obtain ⟨h1, h2, h3, h4, h5, hpw⟩ := hpre
    obtain ⟨k, hk⟩ := is_power_of_two_iff.mp hpw
    rcases create_spec o Q gf hf Gv Hv av bv st hk (h1.trans hk) (h2.trans hk)
        (h3.trans hk) (h4.trans hk) (h5.trans hk)
      with ⟨_, _, herr⟩ | ⟨_, _, _, hok, _⟩
    · rw [hpanic] at herr
      exact absurd herr (by simp)
    · rw [hpanic] at hok
      exact absurd hok (by simp)
  · intro hne
    rw [create]
    simp only []
    by_cases hc : Hv.length = Gv.length ∧ av.length = Gv.length ∧ bv.length = Gv.length
        ∧ gf.length = Gv.length ∧ hf.length = Gv.length
    · rw [if_pos hc]
      have hpw : ¬ is_power_of_two Gv.length = true := by
        intro hpw
        exact hne ⟨hc.1, hc.2.1, hc.2.2.1, hc.2.2.2.1, hc.2.2.2.2, hpw⟩
      rw [if_neg hpw]
    · rw [if_neg hc]

theorem create_err_spec (o : Oracle F G S) (Q : G) (gf hf : List F) (Gv Hv : List G)
    (av bv : List F) (st : S) {k : Nat}
    (hG : Gv.length = 2 ^ k) (hH : Hv.length = 2 ^ k) (ha : av.length = 2 ^ k)
    (hb : bv.length = 2 ^ k) (hgf : gf.length = 2 ^ k) (hhf : hf.length = 2 ^ k)
    {e : ProofError} (herr : create o Q gf hf Gv Hv av bv st = CResult.err e) :
    e = ProofError.FormatError ∧ ∃ st0, (o.challenge st0).1 = 0 := by
  rcases create_spec o Q gf hf Gv Hv av bv st hG hH ha hb hgf hhf
    with ⟨st0, hz, herr'⟩ | ⟨_, _, _, hok, _⟩
  · rw [herr] at herr'
    injection herr' with he
    exact ⟨he, st0, hz⟩
  · rw [herr] at hok
    exact absurd hok (by simp)

theorem create_ok_of_nonzero (o : Oracle F G S) (Q : G) (gf hf : List F) (Gv Hv : List G)
    (av bv : List F) (st : S) {k : Nat}
    (hG : Gv.length = 2 ^ k) (hH : Hv.length = 2 ^ k) (ha : av.length = 2 ^ k)
    (hb : bv.length = 2 ^ k) (hgf : gf.length = 2 ^ k) (hhf : hf.length = 2 ^ k)
    (hch : ∀ s : S, (o.challenge s).1 ≠ 0) :
    ∃ pr st', create o Q gf hf Gv Hv av bv st = CResult.ok pr st'
      ∧ pr.L_vec.length = k ∧ pr.R_vec.length = k := by
  rcases create_spec o Q gf hf Gv Hv av bv st hG hH ha hb hgf hhf
    with ⟨st0, hz, _⟩ | ⟨us, pr, st', hok, _, hlL, hlR, _⟩
  · exact absurd hz (hch st0)
  · exact ⟨pr, st', hok, hlL, hlR⟩

theorem create_ok_lengths (o : Oracle F G S) (Q : G) (gf hf : List F) (Gv Hv : List G)
    (av bv : List F) (st : S) {k : Nat}
    (hG : Gv.length = 2 ^ k) (hH : Hv.length = 2 ^ k) (ha : av.length = 2 ^ k)
    (hb : bv.length = 2 ^ k) (hgf : gf.length = 2 ^ k) (hhf : hf.length = 2 ^ k)
    {pr : InnerProductProof F G} {st' : S}
    (hok : create o Q gf hf Gv Hv av bv st = CResult.ok pr st') :
    pr.L_vec.length = k ∧ pr.R_vec.length = k := by
  rcases create_spec o Q gf hf Gv Hv av bv st hG hH ha hb hgf hhf
    with ⟨_, _, herr⟩ | ⟨us, pr', st'', hok', _, hlL, hlR, _⟩
  · rw [herr] at hok
    exact absurd hok (by simp)
  · rw [hok] at hok'
    injection hok' with hp hs
    subst hp
    exact ⟨hlL, hlR⟩

/-! ### Codec lemmas -/

theorem foldl_buf (c : Codec F G) :
    ∀ (l : List (G × G)) (acc : List Nat),
      l.foldl (fun buf lr => buf ++ c.compress lr.1 ++ c.compress lr.2) acc
        = acc ++ (l.map (fun lr => c.compress lr.1 ++ c.compress lr.2)).flatten := by
  intro l
  induction l with
  | nil => intro acc; simp
  | cons x xs ih =>
    intro acc
    rw [List.foldl_cons, ih, List.map_cons, List.flatten_cons]
    simp [List.append_assoc]

theorem to_bytes_eq_iter (c : Codec F G) (pr : InnerProductProof F G) :
    to_bytes c pr = to_bytes_iter c pr := by
  rw [to_bytes, to_bytes_iter, foldl_buf, List.nil_append]

theorem to_bytes_structure (c : Codec F G) (pr : InnerProductProof F G) :
    to_bytes c pr
      = ((pr.L_vec.zip pr.R_vec).map (fun lr => c.compress lr.1 ++ c.compress lr.2)).flatten
        ++ c.scalarToBytes pr.a ++ c.scalarToBytes pr.b := by
  rw [to_bytes, foldl_buf, List.nil_append]

theorem decode_points_err_only (c : Codec F G) (bs : List Nat) :
    ∀ (cnt pos : Nat) (e : ProofError),
      decode_points c bs cnt pos = .error e → e = ProofError.FormatError := by
  intro cnt
  induction cnt with
  | zero => intro pos e h; exact absurd h (by rw [decode_points]; simp)
  | succ n ih =>
    intro pos e h
    rw [decode_points] at h
    rcases hd1 : c.decompress ((bs.drop pos).take 48) with _ | L
    · rw [hd1] at h
      injection h with he
      exact he.symm
    · rw [hd1] at h
      rcases hd2 : c.decompress ((bs.drop (pos + 48)).take 48) with _ | R
      · rw [hd2] at h
        injection h with he
        exact he.symm
      · rw [hd2] at h
        rcases hd3 : decode_points c bs n (pos + 96) with e' | LR
        · rw [hd3] at h
          injection h with he
          rw [← he]
          exact ih (pos + 96) e' hd3
        · rw [hd3] at h
          exact absurd h (by simp)

theorem decode_points_ok_of (c : Codec F G) (bs : List Nat) :
    ∀ (cnt pos : Nat),
      (∀ j, j < 2 * cnt → c.decompress ((bs.drop (pos + 48 * j)).take 48) ≠ none) →
      ∃ LR, decode_points c bs cnt pos = .ok LR := by
  intro cnt
  induction cnt with
  | zero => intro pos _; exact ⟨([], []), rfl⟩
  | succ n ih =>
    intro pos hne
    rcases hd1 : c.decompress ((bs.drop pos).take 48) with _ | L
    · exact absurd (by simpa using hd1) (hne 0 (by omega))
    · rcases hd2 : c.decompress ((bs.drop (pos + 48)).take 48) with _ | R
      · exact absurd (by simpa using hd2) (hne 1 (by omega))
      · obtain ⟨LR, hLR⟩ := ih (pos + 96) (by
          intro j hj
          have := hne (j + 2) (by omega)
          rw [show pos + 48 * (j + 2) = pos + 96 + 48 * j by ring] at this
          exact this)
        refine ⟨(L :: LR.1, R :: LR.2), ?_⟩
        rw [decode_points, hd1, hd2, hLR]

theorem decode_points_err_of (c : Codec F G) (bs : List Nat) :
    ∀ (cnt pos : Nat),
      (∃ j, j < 2 * cnt ∧ c.decompress ((bs.drop (pos + 48 * j)).take 48) = none) →
      decode_points c bs cnt pos = .error ProofError.FormatError := by
  intro cnt
  induction cnt with
  | zero =>
    intro pos h
    obtain ⟨j, hj, _⟩ := h
    omega
  | succ n ih =>
    intro pos h
    rcases hd1 : c.decompress ((bs.drop pos).take 48) with _ | L
    · rw [decode_points, hd1]
    · rcases hd2 : c.decompress ((bs.drop (pos + 48)).take 48) with _ | R
      · rw [decode_points, hd1, hd2]
      · obtain ⟨j, hj, hfail⟩ := h
        have hj2 : 2 ≤ j := by
          rcases Nat.lt_or_ge j 2 with hlt | hge
          · interval_cases j
            · rw [show pos + 48 * 0 = pos by ring] at hfail
              rw [hfail] at hd1
              exact absurd hd1 (by simp)
            · rw [show pos + 48 * 1 = pos + 48 by ring] at hfail
              rw [hfail] at hd2
              exact absurd hd2 (by simp)
          · exact hge
        have htail : decode_points c bs n (pos + 96) = .error ProofError.FormatError := by
          refine ih (pos + 96) ⟨j - 2, by omega, ?_⟩
          rw [show pos + 96 + 48 * (j - 2) = pos + 48 * j by omega]
          exact hfail
        rw [decode_points, hd1, hd2, htail]

theorem decode_points_shift (c : Codec F G) (bs : List Nat) :
    ∀ (cnt pos d : Nat),
      decode_points c bs cnt (d + pos) = decode_points c (bs.drop d) cnt pos := by
  intro cnt
  induction cnt with
  | zero => intro pos d; rfl
  | succ n ih =>
    intro pos d
    rw [decode_points, decode_points]
    have e1 : bs.drop (d + pos) = (bs.drop d).drop pos := (List.drop_drop pos d bs).symm
    have e2 : bs.drop (d + pos + 48) = (bs.drop d).drop (pos + 48) := by
      rw [show d + pos + 48 = d + (pos + 48) by ring]
      exact (List.drop_drop (pos + 48) d bs).symm
    rw [e1, e2, show d + pos + 96 = d + (pos + 96) by ring, ih (pos + 96) d]

theorem decode_points_roundtrip (c : Codec F G)
    (hclen : ∀ P : G, (c.compress P).length = 48)
    (hcd : ∀ P : G, c.decompress (c.compress P) = some P) :
    ∀ (pairs : List (G × G)) (rest : List Nat),
      decode_points c
          ((pairs.map (fun lr => c.compress lr.1 ++ c.compress lr.2)).flatten ++ rest)
          pairs.length 0
        = .ok (pairs.map Prod.fst, pairs.map Prod.snd) := by
  intro pairs
  induction pairs with
  | nil => intro rest; rfl
  | cons p ps ih =>
    intro rest
    rw [List.map_cons, List.flatten_cons, List.length_cons]
    have hassoc : (c.compress p.1 ++ c.compress p.2)
          ++ ((ps.map (fun lr => c.compress lr.1 ++ c.compress lr.2)).flatten ++ rest)
        = c.compress p.1 ++ (c.compress p.2
          ++ ((ps.map (fun lr => c.compress lr.1 ++ c.compress lr.2)).flatten ++ rest)) := by
      simp [List.append_assoc]
    rw [List.append_assoc, hassoc]
    rw [decode_points]
    have hdrop48 : (c.compress p.1 ++ (c.compress p.2
          ++ ((ps.map (fun lr => c.compress lr.1 ++ c.compress lr.2)).flatten
            ++ rest))).drop 48
        = c.compress p.2
          ++ ((ps.map (fun lr => c.compress lr.1 ++ c.compress lr.2)).flatten ++ rest) := by
      rw [← hclen p.1]
      exact List.drop_left _ _
    have h1 : ((c.compress p.1 ++ (c.compress p.2
          ++ ((ps.map (fun lr => c.compress lr.1 ++ c.compress lr.2)).flatten
            ++ rest))).drop 0).take 48 = c.compress p.1 := by
      rw [List.drop_zero, ← hclen p.1]
      exact List.take_left _ _
    have h2 : ((c.compress p.1 ++ (c.compress p.2
          ++ ((ps.map (fun lr => c.compress lr.1 ++ c.compress lr.2)).flatten
            ++ rest))).drop 48).take 48 = c.compress p.2 := by
      rw [hdrop48, ← hclen p.2]
      exact List.take_left _ _
    rw [h1, hcd p.1, h2, hcd p.2]
    have hdrop96 : (c.compress p.1 ++ (c.compress p.2
          ++ ((ps.map (fun lr => c.compress lr.1 ++ c.compress lr.2)).flatten
            ++ rest))).drop 96
        = (ps.map (fun lr => c.compress lr.1 ++ c.compress lr.2)).flatten ++ rest := by
      have hsplit : (c.compress p.1 ++ (c.compress p.2
            ++ ((ps.map (fun lr => c.compress lr.1 ++ c.compress lr.2)).flatten
              ++ rest))).drop 96
          = ((c.compress p.1 ++ (c.compress p.2
            ++ ((ps.map (fun lr => c.compress lr.1 ++ c.compress lr.2)).flatten
              ++ rest))).drop 48).drop 48 := by
        rw [List.drop_drop]
      rw [hsplit, hdrop48, ← hclen p.2]
      exact List.drop_left _ _
    have h3 : decode_points c (c.compress p.1 ++ (c.compress p.2
          ++ ((ps.map (fun lr => c.compress lr.1 ++ c.compress lr.2)).flatten
            ++ rest))) ps.length (0 + 96)
        = .ok (ps.map Prod.fst, ps.map Prod.snd) := by
      rw [show (0 + 96 : Nat) = 96 + 0 by ring, decode_points_shift, hdrop96]
      exact ih rest
    rw [h3]
    rfl

theorem blocks_length (c : Codec F G) (hclen : ∀ P : G, (c.compress P).length = 48) :
    ∀ (pairs : List (G × G)),
      ((pairs.map (fun lr => c.compress lr.1 ++ c.compress lr.2)).flatten).length
        = 96 * pairs.length := by
  intro pairs
  induction pairs with
  | nil => rfl
  | cons p ps ih =>
    rw [List.map_cons, List.flatten_cons, List.length_append, ih, List.length_append,
      hclen, hclen, List.length_cons]
    ring

/-- Serialization round-trip for a structurally sound proof, over any lawful
codec. -/
theorem from_bytes_to_bytes (c : Codec F G)
    (hclen : ∀ P : G, (c.compress P).length = 48)
    (hcd : ∀ P : G, c.decompress (c.compress P) = some P)
    (hslen : ∀ x : F, (c.scalarToBytes x).length = 32)
    (hsd : ∀ x : F, c.scalarFromBytes (c.scalarToBytes x) = some x)
    (pr : InnerProductProof F G)
    (hLR : pr.L_vec.length = pr.R_vec.length) (h32 : pr.L_vec.length < 32) :
    from_bytes c (to_bytes c pr) = .ok pr := by
  have hzlen : (pr.L_vec.zip pr.R_vec).length = pr.L_vec.length := by
    rw [List.length_zip]
    omega
  have hblen : (to_bytes c pr).length = 96 * pr.L_vec.length + 64 := by
    rw [to_bytes_structure, List.length_append, List.length_append,
      blocks_length c hclen, hslen, hslen, hzlen]
  rw [from_bytes]
  simp only []
  rw [hblen]
  rw [if_neg (by omega)]
  have e1 : 96 * pr.L_vec.length + 64 - 32 * 2 = 48 * (2 * pr.L_vec.length) := by omega
  rw [e1, if_neg (by
    rw [Nat.mul_mod_right]
    omega)]
  rw [Nat.mul_div_cancel_left _ (by decide : 0 < 48)]
  rw [if_neg (by
    rw [Nat.mul_mod_right]
    omega)]
  rw [Nat.mul_div_cancel_left _ (by decide : 0 < 2)]
  rw [if_neg (by omega)]
  have hdec : decode_points c (to_bytes c pr) pr.L_vec.length 0
      = .ok (pr.L_vec, pr.R_vec) := by
    have hb : to_bytes c pr
        = ((pr.L_vec.zip pr.R_vec).map (fun lr => c.compress lr.1 ++ c.compress lr.2)).flatten
          ++ (c.scalarToBytes pr.a ++ c.scalarToBytes pr.b) := by
      rw [to_bytes_structure, List.append_assoc]
    rw [hb, ← hzlen, decode_points_roundtrip c hclen hcd,
      List.map_fst_zip _ _ (by omega), List.map_snd_zip _ _ (by omega)]
  rw [hdec]
  have hdropflat : (to_bytes c pr).drop (2 * pr.L_vec.length * 48)
      = c.scalarToBytes pr.a ++ c.scalarToBytes pr.b := by
    rw [to_bytes_structure, List.append_assoc,
      show 2 * pr.L_vec.length * 48 = 96 * pr.L_vec.length by ring,
      show (96 : Nat) * pr.L_vec.length
        = ((pr.L_vec.zip pr.R_vec).map
            (fun lr => c.compress lr.1 ++ c.compress lr.2)).flatten.length by
        rw [blocks_length c hclen, hzlen]]
    exact List.drop_left _ _
  have hs1 : ((to_bytes c pr).drop (2 * pr.L_vec.length * 48)).take 32
      = c.scalarToBytes pr.a := by
    rw [hdropflat, ← hslen pr.a]
    exact List.take_left _ _
  have hs2 : ((to_bytes c pr).drop (2 * pr.L_vec.length * 48 + 32)).take 32
      = c.scalarToBytes pr.b := by
    have hdd : (to_bytes c pr).drop (2 * pr.L_vec.length * 48 + 32)
        = ((to_bytes c pr).drop (2 * pr.L_vec.length * 48)).drop 32 :=
      (List.drop_drop 32 (2 * pr.L_vec.length * 48) (to_bytes c pr)).symm
    have hd : (c.scalarToBytes pr.a ++ c.scalarToBytes pr.b).drop 32
        = c.scalarToBytes pr.b := by
      rw [← hslen pr.a]
      exact List.drop_left _ _
    rw [hdd, hdropflat, hd, ← hslen pr.b]
    exact List.take_length _
  rw [hs1, hsd pr.a, hs2, hsd pr.b]

/-- Full characterization of `from_bytes`: it fails -- always with
`FormatError` -- exactly on the rejection condition, and succeeds
otherwise. -/
theorem from_bytes_spec (c : Codec F G) (bs : List Nat) :
    (from_bytes_rejects c bs → from_bytes c bs = .error ProofError.FormatError)
    ∧ (¬ from_bytes_rejects c bs → ∃ pr, from_bytes c bs = .ok pr) := by
  rw [from_bytes]
  simp only []
  by_cases h1 : bs.length < 2 * 32
  · rw [if_pos h1]
    exact ⟨fun _ => rfl, fun hnb => absurd (Or.inl (by omega)) hnb⟩
  · rw [if_neg h1]
    by_cases h2 : (bs.length - 32 * 2) % 48 ≠ 0
    · rw [if_pos h2]
      exact ⟨fun _ => rfl, fun hnb => absurd (Or.inr (Or.inl (by omega))) hnb⟩
    · rw [if_neg h2]
      by_cases h3 : (bs.length - 32 * 2) / 48 % 2 ≠ 0
      · rw [if_pos h3]
        exact ⟨fun _ => rfl, fun hnb => absurd (Or.inr (Or.inr (Or.inl (by omega)))) hnb⟩
      · rw [if_neg h3]
        by_cases h4 : 32 ≤ (bs.length - 32 * 2) / 48 / 2
        · rw [if_pos h4]
          exact ⟨fun _ => rfl,
            fun hnb => absurd (Or.inr (Or.inr (Or.inr (Or.inl (by omega))))) hnb⟩
        · rw [if_neg h4]
          rcases hdec : decode_points c bs ((bs.length - 32 * 2) / 48 / 2) 0 with e | LR
          · have he : e = ProofError.FormatError := decode_points_err_only c bs _ _ _ hdec
            subst he
            have hrej : from_bytes_rejects c bs := by
              by_contra hnb
              have hgood : ∀ j, j < 2 * ((bs.length - 32 * 2) / 48 / 2) →
                  c.decompress ((bs.drop (0 + 48 * j)).take 48) ≠ none := by
                intro j hj hfail
                refine hnb (Or.inr (Or.inr (Or.inr (Or.inr (Or.inl ⟨j, by omega, ?_⟩)))))
                rw [show (48 : Nat) * j = 0 + 48 * j by omega]
                exact hfail
              obtain ⟨LR, hLR⟩ := decode_points_ok_of c bs _ 0 hgood
              rw [hdec] at hLR
              exact absurd hLR (by simp)
            exact ⟨fun _ => rfl, fun hnb => absurd hrej hnb⟩
          · obtain ⟨Ls, Rs⟩ := LR
            rcases hsc1 : c.scalarFromBytes
                ((bs.drop (2 * ((bs.length - 32 * 2) / 48 / 2) * 48)).take 32) with _ | a
            · have hrej : from_bytes_rejects c bs :=
                Or.inr (Or.inr (Or.inr (Or.inr (Or.inr (Or.inl (by
                  rw [show bs.length - 64 = bs.length - 32 * 2 by omega]
                  exact hsc1))))))
              exact ⟨fun _ => rfl, fun hnb => absurd hrej hnb⟩
            · rcases hsc2 : c.scalarFromBytes
                  ((bs.drop (2 * ((bs.length - 32 * 2) / 48 / 2) * 48 + 32)).take 32)
                with _ | b
              · have hrej : from_bytes_rejects c bs :=
                  Or.inr (Or.inr (Or.inr (Or.inr (Or.inr (Or.inr (by
                    rw [show bs.length - 64 = bs.length - 32 * 2 by omega]
                    exact hsc2))))))
                exact ⟨fun _ => rfl, fun hnb => absurd hrej hnb⟩
              · refine ⟨?_, fun _ => ⟨⟨Ls, Rs, a, b⟩, rfl⟩⟩
                intro hrej
                rcases hrej with h | h | h | h | ⟨j, hj, hfail⟩ | h | h
                · omega
                · omega
                · omega
                · omega
                · have : decode_points c bs ((bs.length - 32 * 2) / 48 / 2) 0
                      = .error ProofError.FormatError := by
                    refine decode_points_err_of c bs _ 0 ⟨j, by omega, ?_⟩
                    rw [show (0 : Nat) + 48 * j = 48 * j by omega]
                    exact hfail
                  rw [hdec] at this
                  exact absurd this (by simp)
                · rw [show bs.length - 64 = bs.length - 32 * 2 by omega] at h
                  rw [hsc1] at h
                  exact absurd h (by simp)
                · rw [show bs.length - 64 = bs.length - 32 * 2 by omega] at h
                  rw [hsc2] at h
                  exact absurd h (by simp)

/-! ### Remaining small helpers -/

theorem vsChallenges_ok (o : Oracle F G S) :
    ∀ (Ls Rs : List G) (st : S),
      (∀ P ∈ Ls, P ≠ 0) → (∀ P ∈ Rs, P ≠ 0) →
      ∃ us st', vsChallenges o (Ls.zip Rs) st = .ok (us, st')
        ∧ us.length = (Ls.zip Rs).length := by
  intro Ls
  induction Ls with
  | nil => intro Rs st _ _; exact ⟨[], st, rfl, rfl⟩
  | cons L Ls ih =>
    intro Rs st hL hR
    cases Rs with
    | nil => exact ⟨[], st, by rw [List.zip_nil_right]; rfl, by rw [List.zip_nil_right]; rfl⟩
    | cons R Rs =>
      obtain ⟨us, st', hok, hlen⟩ := ih Rs
        ((o.challenge (o.appendPoint (o.appendPoint st false L) true R)).2)
        (fun P hP => hL P (List.mem_cons_of_mem _ hP))
        (fun P hP => hR P (List.mem_cons_of_mem _ hP))
      refine ⟨(o.challenge (o.appendPoint (o.appendPoint st false L) true R)).1 :: us, st',
        ?_, ?_⟩
      · rw [List.zip_cons_cons, vsChallenges,
          if_neg (hL L (List.mem_cons_self _ _)), if_neg (hR R (List.mem_cons_self _ _))]
        simp only []
        rw [hok]
      · rw [List.zip_cons_cons, List.length_cons, List.length_cons, hlen]

theorem decode_points_ok_lengths (c : Codec F G) (bs : List Nat) :
    ∀ (cnt pos : Nat) (Ls Rs : List G),
      decode_points c bs cnt pos = .ok (Ls, Rs) →
      Ls.length = cnt ∧ Rs.length = cnt := by
  intro cnt
  induction cnt with
  | zero =>
    intro pos Ls Rs h
    rw [decode_points] at h
    injection h with h'
    injection h' with h1 h2
    rw [← h1, ← h2]
    exact ⟨rfl, rfl⟩
  | succ n ih =>
    intro pos Ls Rs h
    rw [decode_points] at h
    rcases hd1 : c.decompress ((bs.drop pos).take 48) with _ | L
    · rw [hd1] at h
      exact absurd h (by simp)
    · rw [hd1] at h
      rcases hd2 : c.decompress ((bs.drop (pos + 48)).take 48) with _ | R
      · rw [hd2] at h
        exact absurd h (by simp)
      · rw [hd2] at h
        rcases hd3 : decode_points c bs n (pos + 96) with e | LR
        · rw [hd3] at h
          exact absurd h (by simp)
        · rw [hd3] at h
          obtain ⟨Ls', Rs'⟩ := LR
          injection h with h'
          injection h' with h1 h2
          obtain ⟨hl, hr⟩ := ih (pos + 96) Ls' Rs' hd3
          rw [← h1, ← h2, List.length_cons, List.length_cons, hl, hr]
          exact ⟨rfl, rfl⟩

theorem from_bytes_ok_lengths (c : Codec F G) (bs : List Nat)
    (pr : InnerProductProof F G) (h : from_bytes c bs = .ok pr) :
    pr.L_vec.length = pr.R_vec.length ∧ pr.L_vec.length < 32 := by
  rw [from_bytes] at h
  simp only [] at h
  by_cases h1 : bs.length < 2 * 32
  · rw [if_pos h1] at h
    exact absurd h (by simp)
  · rw [if_neg h1] at h
    by_cases h2 : (bs.length - 32 * 2) % 48 ≠ 0
    · rw [if_pos h2] at h
      exact absurd h (by simp)
    · rw [if_neg h2] at h
      by_cases h3 : (bs.length - 32 * 2) / 48 % 2 ≠ 0
      · rw [if_pos h3] at h
        exact absurd h (by simp)
      · rw [if_neg h3] at h
        by_cases h4 : 32 ≤ (bs.length - 32 * 2) / 48 / 2
        · rw [if_pos h4] at h
          exact absurd h (by simp)
        · rw [if_neg h4] at h
          rcases hdec : decode_points c bs ((bs.length - 32 * 2) / 48 / 2) 0 with e | LR
          · rw [hdec] at h
            exact absurd h (by simp)
          · obtain ⟨Ls, Rs⟩ := LR
            rw [hdec] at h
            rcases hs1 : c.scalarFromBytes
                ((bs.drop (2 * ((bs.length - 32 * 2) / 48 / 2) * 48)).take 32) with _ | a
            · rw [hs1] at h
              exact absurd h (by simp)
            · rw [hs1] at h
              rcases hs2 : c.scalarFromBytes
                  ((bs.drop (2 * ((bs.length - 32 * 2) / 48 / 2) * 48 + 32)).take 32)
                with _ | b
              · rw [hs2] at h
                exact absurd h (by simp)
              · rw [hs2] at h
                injection h with h'
                obtain ⟨hl, hr⟩ := decode_points_ok_lengths c bs _ 0 Ls Rs hdec
                rw [← h']
                simp only []
                rw [hl, hr]
                exact ⟨rfl, by omega⟩

theorem zipWith_one_smul :
    ∀ (n : Nat) (l : List G), l.length = n →
      List.zipWith (· • ·) (List.replicate n (1 : F)) l = l := by
  intro n
  induction n with
  | zero =>
    intro l hl
    obtain rfl : l = [] := List.length_eq_zero.mp hl
    rfl
  | succ n ih =>
    intro l hl
    cases l with
    | nil => simp at hl
    | cons x xs =>
      rw [List.replicate_succ, List.zipWith_cons_cons, one_smul,
        ih xs (by simpa using hl)]

theorem to_bytes_length (c : Codec F G)
    (hclen : ∀ P : G, (c.compress P).length = 48)
    (hslen : ∀ x : F, (c.scalarToBytes x).length = 32)
    (pr : InnerProductProof F G) (hLR : pr.L_vec.length = pr.R_vec.length) :
    (to_bytes c pr).length = 96 * pr.L_vec.length + 64 := by
  have hzlen : (pr.L_vec.zip pr.R_vec).length = pr.L_vec.length := by
    rw [List.length_zip]
    omega
  rw [to_bytes_structure, List.length_append, List.length_append,
    blocks_length c hclen, hslen, hslen, hzlen]

theorem f5_compress_length : ∀ P : Fin 5, (f5Codec.compress P).length = 48 := by decide

theorem f5_decompress_compress : ∀ P : Fin 5, f5Codec.decompress (f5Codec.compress P) = some P := by
  decide

theorem f5_scalar_length : ∀ x : Fin 5, (f5Codec.scalarToBytes x).length = 32 := by decide

theorem f5_scalar_roundtrip :
    ∀ x : Fin 5, f5Codec.scalarFromBytes (f5Codec.scalarToBytes x) = some x := by decide

theorem o1_challenge_nonzero : ∀ s : Unit, (o1.challenge s).1 ≠ 0 := by
  intro s
  cases s
  decide

/-! ## Claims -/

/-- C1 (counterexample): the completeness claim fails as stated.  At `n = 2`
with `a = b = (0,0)` the honestly created proof has `L = R = 0` (the identity
point); `create` succeeds, but `verify` on its output with the honestly
computed `P` and an identically initialized transcript rejects, because the
verifier's `validate_and_append_point` refuses the identity point. -/
theorem C1_counterexample :
    create o1 1 [1, 1] [1, 1] ([1, 1] : List (Fin 5)) [1, 1] [0, 0] [0, 0] ()
        = CResult.ok ⟨[0], [0], 0, 0⟩ ()
    ∧ verify o1 ⟨[0], [0], 0, 0⟩ 2 [1, 1] [1, 1]
        (honestP ([1, 1] : List (Fin 5)) [1, 1] [1, 1] [1, 1] [0, 0] [0, 0] 1) 1
        [1, 1] [1, 1] () = .error ProofError.VerificationError :=
  ⟨by decide, by decide⟩

/-- C1 (amended): completeness holds for every positive power-of-two
`n = 2^k` with `n < 2^32` (so that the verifier's size check passes),
provided no round commitment `L_j`, `R_j` is the identity point: if `create`
succeeds then `verify` on its output, with the honestly computed
`P = Σ aᵢ•(gᵢ•Gᵢ) + Σ bᵢ•(hᵢ•Hᵢ) + ⟨a,b⟩•Q` and an identically initialized
transcript, returns `Ok`. -/
theorem C1_completeness (o : Oracle F G S) (Q : G) (gf hf : List F) (Gv Hv : List G)
    (av bv : List F) (st : S) (k : Nat)
    (hG : Gv.length = 2 ^ k) (hH : Hv.length = 2 ^ k) (ha : av.length = 2 ^ k)
    (hb : bv.length = 2 ^ k) (hgf : gf.length = 2 ^ k) (hhf : hf.length = 2 ^ k)
    (hk32 : k < 32) (pr : InnerProductProof F G) (st' : S)
    (hok : create o Q gf hf Gv Hv av bv st = CResult.ok pr st')
    (hL : ∀ P ∈ pr.L_vec, P ≠ 0) (hR : ∀ P ∈ pr.R_vec, P ≠ 0) :
    verify o pr (2 ^ k) gf hf (honestP gf hf Gv Hv av bv Q) Q Gv Hv st = .ok () :=
  verify_create_complete o Q gf hf Gv Hv av bv st hG hH ha hb hgf hhf hk32 hok hL hR

/-- C1 (witness): a concrete `n = 2` honest run over `Fin 5` whose round
commitments avoid the identity; `verify` accepts. -/
theorem C1_witness :
    create o1 1 [1, 1] [1, 1] ([1, 2] : List (Fin 5)) [3, 4] [0, 0] [1, 1] ()
        = CResult.ok ⟨[3], [4], 0, 2⟩ ()
    ∧ verify o1 ⟨[3], [4], 0, 2⟩ 2 [1, 1] [1, 1]
        (honestP ([1, 1] : List (Fin 5)) [1, 1] [1, 2] [3, 4] [0, 0] [1, 1] 1) 1
        [1, 2] [3, 4] () = .ok () :=
  ⟨by decide,
    C1_completeness o1 1 [1, 1] [1, 1] [1, 2] [3, 4] [0, 0] [1, 1] () 1
      (by decide) (by decide) (by decide) (by decide) (by decide) (by decide)
      (by decide) ⟨[3], [4], 0, 2⟩ () (by decide) (by decide) (by decide)⟩

/-- C2: the inductively built `s` vector of `verification_scalars`
(lines 251-262, embedded as `sElem` over the squared challenges and the
product of the inverse challenges) agrees with the spec's closed form
`s[i] = Π_j u_j^{b_ij}`, where `b_ij = +1` iff bit `(k−1−j)` of `i` is
set. -/
theorem C2_s_closed_form (us : List F) (hk : us.length < 32)
    (hnz : ∀ u ∈ us, u ≠ 0) (i : Nat) (hi : i < 2 ^ us.length) :
    sElem (us.map (fun u => u * u)) us.length ((us.map (·⁻¹)).foldl (· * ·) 1) i
      = sClosed us i :=
  sElem_eq_sClosed us i hi

/-- C2 (witness): the closed form checked at `k = 2`, `i = 2` over
`Fin 5`. -/
theorem C2_witness :
    sElem (([2, 3] : List (Fin 5)).map (fun u => u * u)) 2
        ((([2, 3] : List (Fin 5)).map (·⁻¹)).foldl (· * ·) 1) 2
      = sClosed ([2, 3] : List (Fin 5)) 2 :=
  C2_s_closed_form [2, 3] (by decide) (by decide) 2 (by decide)

/-- C3: factor equivalence.  Running `create` with factor vectors `g`, `h`
produces the same result (proof and final transcript state) as running it on
the pre-twisted bases `gᵢ • Gᵢ`, `hᵢ • Hᵢ` with all-ones factor vectors. -/
theorem C3_factor_equivalence (o : Oracle F G S) (Q : G) (gf hf : List F)
    (Gv Hv : List G) (av bv : List F) (st : S) (k : Nat)
    (hG : Gv.length = 2 ^ k) (hH : Hv.length = 2 ^ k) (ha : av.length = 2 ^ k)
    (hb : bv.length = 2 ^ k) (hgf : gf.length = 2 ^ k) (hhf : hf.length = 2 ^ k) :
    create o Q gf hf Gv Hv av bv st
      = create o Q (List.replicate (2 ^ k) 1) (List.replicate (2 ^ k) 1)
          (List.zipWith (· • ·) gf Gv) (List.zipWith (· • ·) hf Hv) av bv st := by
  have hGt : (List.zipWith (· • ·) gf Gv).length = 2 ^ k := by
    rw [List.length_zipWith, hgf, hG]
    omega
  have hHt : (List.zipWith (· • ·) hf Hv).length = 2 ^ k := by
    rw [List.length_zipWith, hhf, hH]
    omega
  rw [create_eq_loop o Q gf hf Gv Hv av bv st hG hH ha hb hgf hhf,
    create_eq_loop o Q (List.replicate (2 ^ k) 1) (List.replicate (2 ^ k) 1)
      (List.zipWith (· • ·) gf Gv) (List.zipWith (· • ·) hf Hv) av bv st
      hGt hHt ha hb (List.length_replicate _ _) (List.length_replicate _ _),
    zipWith_one_smul (2 ^ k) _ hGt, zipWith_one_smul (2 ^ k) _ hHt]

/-- C3 (witness): a concrete `n = 4` instance over `Fin 5` with nontrivial
factors. -/
theorem C3_witness :
    create o1 1 ([1, 2, 3, 4] : List (Fin 5)) [4, 3, 2, 1]
        ([1, 2, 3, 4] : List (Fin 5)) [2, 2, 1, 1] [2, 3, 1, 1] [1, 4, 2, 3] ()
      = create o1 1 (List.replicate 4 1) (List.replicate 4 1)
          (List.zipWith (· • ·) ([1, 2, 3, 4] : List (Fin 5))
            ([1, 2, 3, 4] : List (Fin 5)))
          (List.zipWith (· • ·) ([4, 3, 2, 1] : List (Fin 5))
            ([2, 2, 1, 1] : List (Fin 5))) [2, 3, 1, 1] [1, 4, 2, 3] () :=
  C3_factor_equivalence o1 1 [1, 2, 3, 4] [4, 3, 2, 1] [1, 2, 3, 4] [2, 2, 1, 1]
    [2, 3, 1, 1] [1, 4, 2, 3] () 2 (by decide) (by decide) (by decide) (by decide)
    (by decide) (by decide)

/-- C4 (counterexample): `create` enforces no upper bound on `n`, so at
`n = 2^32` it succeeds and returns a proof with `|L_vec| = 32`, violating
the claimed invariant `|L_vec| < 32`. -/
theorem C4_counterexample :
    ∃ (pr : InnerProductProof (Fin 5) (Fin 5)) (st' : Unit),
      create o1 1 (List.replicate (2 ^ 32) 1) (List.replicate (2 ^ 32) 1)
          (List.replicate (2 ^ 32) 1) (List.replicate (2 ^ 32) 1)
          (List.replicate (2 ^ 32) 0) (List.replicate (2 ^ 32) 0) ()
        = CResult.ok pr st'
      ∧ ¬ (pr.L_vec.length = pr.R_vec.length ∧ pr.L_vec.length < 32) := by
  obtain ⟨pr, st', hok, hl, hr⟩ := create_ok_of_nonzero o1 1
    (List.replicate (2 ^ 32) 1) (List.replicate (2 ^ 32) 1)
    (List.replicate (2 ^ 32) 1) (List.replicate (2 ^ 32) 1)
    (List.replicate (2 ^ 32) 0) (List.replicate (2 ^ 32) 0) ()
    (List.length_replicate _ _) (List.length_replicate _ _) (List.length_replicate _ _)
    (List.length_replicate _ _) (List.length_replicate _ _) (List.length_replicate _ _)
    o1_challenge_nonzero
  refine ⟨pr, st', hok, ?_⟩
  rintro ⟨_, hlt⟩
  rw [hl] at hlt
  omega

/-- C4 (amended): every proof returned by `create` has `|L_vec| = |R_vec|`,
and `|L_vec| < 32` holds whenever `n < 2^32`; every proof returned by
`from_bytes` satisfies both `|L_vec| = |R_vec|` and `|L_vec| < 32`. -/
theorem C4_proof_shape :
    (∀ (T : Type) (o : Oracle F G T) (Q : G) (gf hf : List F) (Gv Hv : List G)
        (av bv : List F) (st : T) (k : Nat),
        Gv.length = 2 ^ k → Hv.length = 2 ^ k → av.length = 2 ^ k →
        bv.length = 2 ^ k → gf.length = 2 ^ k → hf.length = 2 ^ k →
        ∀ (pr : InnerProductProof F G) (st' : T),
          create o Q gf hf Gv Hv av bv st = CResult.ok pr st' →
          pr.L_vec.length = pr.R_vec.length ∧ (Gv.length < 2 ^ 32 → pr.L_vec.length < 32))
    ∧ (∀ (c : Codec F G) (bs : List Nat) (pr : InnerProductProof F G),
        from_bytes c bs = .ok pr →
        pr.L_vec.length = pr.R_vec.length ∧ pr.L_vec.length < 32) := by
  constructor
  · intro T o Q gf hf Gv Hv av bv st k hG hH ha hb hgf hhf pr st' hok
    obtain ⟨hl, hr⟩ := create_ok_lengths o Q gf hf Gv Hv av bv st hG hH ha hb hgf hhf hok
    refine ⟨hl.trans hr.symm, ?_⟩
    intro hn
    rw [hG] at hn
    rw [hl]
    exact (Nat.pow_lt_pow_iff_right (by decide : 1 < 2)).mp hn
  · intro c bs pr h
    exact from_bytes_ok_lengths c bs pr h

/-- C4 (witness): the amended invariant instantiated on a concrete
`from_bytes` success. -/
theorem C4_witness :
    (⟨[], [], 2, 3⟩ : InnerProductProof (Fin 5) (Fin 5)).L_vec.length
        = (⟨[], [], 2, 3⟩ : InnerProductProof (Fin 5) (Fin 5)).R_vec.length
    ∧ (⟨[], [], 2, 3⟩ : InnerProductProof (Fin 5) (Fin 5)).L_vec.length < 32 :=
  C4_proof_shape.2 f5Codec ((2 : Nat) :: List.replicate 31 0 ++ 3 :: List.replicate 31 0)
    ⟨[], [], 2, 3⟩ (by decide)

/-- C5 (counterexample): the round-trip claim fails as stated, for the same
reason as the size invariant: a proof created at `n = 2^32` has
`|L_vec| = 32`, and `from_bytes` rejects its own serialization with
`FormatError` because of the `k < 32` bound. -/
theorem C5_counterexample :
    ∃ (pr : InnerProductProof (Fin 5) (Fin 5)) (st' : Unit),
      create o1 1 (List.replicate (2 ^ 32) 1) (List.replicate (2 ^ 32) 1)
          (List.replicate (2 ^ 32) 1) (List.replicate (2 ^ 32) 1)
          (List.replicate (2 ^ 32) 0) (List.replicate (2 ^ 32) 0) ()
        = CResult.ok pr st'
      ∧ from_bytes f5Codec (to_bytes f5Codec pr) = .error ProofError.FormatError := by
  obtain ⟨pr, st', hok, hl, hr⟩ := create_ok_of_nonzero o1 1
    (List.replicate (2 ^ 32) 1) (List.replicate (2 ^ 32) 1)
    (List.replicate (2 ^ 32) 1) (List.replicate (2 ^ 32) 1)
    (List.replicate (2 ^ 32) 0) (List.replicate (2 ^ 32) 0) ()
    (List.length_replicate _ _) (List.length_replicate _ _) (List.length_replicate _ _)
    (List.length_replicate _ _) (List.length_replicate _ _) (List.length_replicate _ _)
    o1_challenge_nonzero
  refine ⟨pr, st', hok, ?_⟩
  refine (from_bytes_spec f5Codec (to_bytes f5Codec pr)).1
    (Or.inr (Or.inr (Or.inr (Or.inl ?_))))
  rw [to_bytes_length f5Codec f5_compress_length f5_scalar_length pr
      (hl.trans hr.symm), hl]

/-- C5 (amended): for every proof produced by `create` at a power-of-two
size `n = 2^k` with `n < 2^32`, and any lawful point/scalar codec,
`from_bytes (to_bytes π)` returns `Ok` with a proof equal to `π`. -/
theorem C5_roundtrip (c : Codec F G)
    (hclen : ∀ P : G, (c.compress P).length = 48)
    (hcd : ∀ P : G, c.decompress (c.compress P) = some P)
    (hslen : ∀ x : F, (c.scalarToBytes x).length = 32)
    (hsd : ∀ x : F, c.scalarFromBytes (c.scalarToBytes x) = some x)
    (o : Oracle F G S) (Q : G) (gf hf : List F) (Gv Hv : List G) (av bv : List F)
    (st : S) (k : Nat)
    (hG : Gv.length = 2 ^ k) (hH : Hv.length = 2 ^ k) (ha : av.length = 2 ^ k)
    (hb : bv.length = 2 ^ k) (hgf : gf.length = 2 ^ k) (hhf : hf.length = 2 ^ k)
    (hk32 : k < 32) (pr : InnerProductProof F G) (st' : S)
    (hok : create o Q gf hf Gv Hv av bv st = CResult.ok pr st') :
    from_bytes c (to_bytes c pr) = .ok pr := by
  obtain ⟨hl, hr⟩ := create_ok_lengths o Q gf hf Gv Hv av bv st hG hH ha hb hgf hhf hok
  exact from_bytes_to_bytes c hclen hcd hslen hsd pr (hl.trans hr.symm)
    (by rw [hl]; exact hk32)

/-- C5 (witness): round-trip of a concrete `n = 1` proof over `Fin 5`. -/
theorem C5_witness :
    from_bytes f5Codec (to_bytes f5Codec (⟨[], [], 2, 3⟩ : InnerProductProof (Fin 5) (Fin 5)))
      = .ok ⟨[], [], 2, 3⟩ :=
  C5_roundtrip f5Codec f5_compress_length f5_decompress_compress f5_scalar_length
    f5_scalar_roundtrip o1 1 [1] [1] [2] [3] [2] [3] () 0
    (by decide) (by decide) (by decide) (by decide) (by decide) (by decide)
    (by decide) ⟨[], [], 2, 3⟩ () (by decide)

/-- C6: inverse symmetry of the `s` vector: `s[i] · s[n−1−i] = 1` for every
`i < n = 2^k`, when the challenges are invertible. -/
theorem C6_inverse_symmetry (us : List F) (hk : us.length < 32)
    (hnz : ∀ u ∈ us, u ≠ 0) (i : Nat) (hi : i < 2 ^ us.length) :
    sElem (us.map (fun u => u * u)) us.length ((us.map (·⁻¹)).foldl (· * ·) 1) i
      * sElem (us.map (fun u => u * u)) us.length ((us.map (·⁻¹)).foldl (· * ·) 1)
          (2 ^ us.length - 1 - i) = 1 := by
  have hpos : 0 < 2 ^ us.length := Nat.pos_pow_of_pos _ (by decide)
  have hi2 : 2 ^ us.length - 1 - i < 2 ^ us.length := by omega
  rw [sElem_eq_sClosed us i hi, sElem_eq_sClosed us _ hi2,
    ← coefList_getD us i hi, ← coefList_getD us _ hi2, ← coefListH_getD us hi]
  exact coefList_mul_coefListH us hnz i hi

/-- C6 (witness): checked at `k = 2`, `i = 1` over `Fin 5`. -/
theorem C6_witness :
    sElem (([2, 3] : List (Fin 5)).map (fun u => u * u)) 2
        ((([2, 3] : List (Fin 5)).map (·⁻¹)).foldl (· * ·) 1) 1
      * sElem (([2, 3] : List (Fin 5)).map (fun u => u * u)) 2
          ((([2, 3] : List (Fin 5)).map (·⁻¹)).foldl (· * ·) 1) 2 = 1 :=
  C6_inverse_symmetry [2, 3] (by decide) (by decide) 1 (by decide)

/-- C7 (counterexample): the error contract fails as stated.  With a
well-sized proof (`k = 1 < 32`, `n = 2 = 2^k`) and a transcript that never
squeezes zero, `verification_scalars` still fails -- with
`VerificationError` -- when an `L` point is the identity, where the claim
promises the scalar triple. -/
theorem C7_counterexample :
    verification_scalars o1 ⟨[0], [0], (0 : Fin 5), 0⟩ 2 ()
        = .error ProofError.VerificationError
    ∧ ¬ (32 ≤ ([(0 : Fin 5)] : List (Fin 5)).length
        ∨ (2 : Nat) ≠ 2 ^ ([(0 : Fin 5)] : List (Fin 5)).length)
    ∧ (∀ s : Unit, (o1.challenge s).1 ≠ 0) :=
  ⟨by decide, by decide, fun s => by cases s; decide⟩

/-- C7 (amended): `verification_scalars` returns `VerificationError`
whenever `|L_vec| ≥ 32` or `n ≠ 2^|L_vec|` (for every oracle and transcript
state, i.e. before any transcript interaction).  For a structurally sound
proof (`|L_vec| = |R_vec|`) within bounds whose points all pass validation
(no identity point), the challenge replay succeeds and the result is
`FormatError` exactly if some squeezed challenge is zero, and otherwise the
triple `(u_sq, u_inv_sq, s)` of lengths `(k, k, n)`. -/
theorem C7_error_contract :
    (∀ (o : Oracle F G S) (pr : InnerProductProof F G) (n : Nat) (st : S),
        32 ≤ pr.L_vec.length ∨ n ≠ 2 ^ pr.L_vec.length →
        verification_scalars o pr n st = .error ProofError.VerificationError)
    ∧ (∀ (o : Oracle F G S) (pr : InnerProductProof F G) (n : Nat) (st : S),
        pr.L_vec.length < 32 → n = 2 ^ pr.L_vec.length →
        pr.L_vec.length = pr.R_vec.length →
        (∀ P ∈ pr.L_vec, P ≠ 0) → (∀ P ∈ pr.R_vec, P ≠ 0) →
        ∃ us st',
          vsChallenges o (pr.L_vec.zip pr.R_vec) (o.domainSep st n) = .ok (us, st')
          ∧ us.length = pr.L_vec.length
          ∧ ((∃ u ∈ us, u = 0) →
              verification_scalars o pr n st = .error ProofError.FormatError)
          ∧ ((∀ u ∈ us, u ≠ 0) →
              verification_scalars o pr n st
                = .ok (us.map (fun u => u * u), (us.map (·⁻¹)).map (fun u => u * u),
                    (List.range n).map (sElem (us.map (fun u => u * u)) pr.L_vec.length
                      ((us.map (·⁻¹)).foldl (· * ·) 1)), st')
              ∧ (us.map (fun u => u * u)).length = pr.L_vec.length
              ∧ ((us.map (·⁻¹)).map (fun u => u * u)).length = pr.L_vec.length
              ∧ ((List.range n).map (sElem (us.map (fun u => u * u)) pr.L_vec.length
                  ((us.map (·⁻¹)).foldl (· * ·) 1))).length = n)) := by
  constructor
  · intro o pr n st h
    rw [verification_scalars]
    simp only []
    by_cases h32 : 32 ≤ pr.L_vec.length
    · rw [if_pos h32]
    · rw [if_neg h32]
      rcases h with h' | hne
      · exact absurd h' h32
      · rw [if_pos hne]
  · intro o pr n st h32 hn hLR hL hR
    obtain ⟨us, st', hch, hlen⟩ := vsChallenges_ok o pr.L_vec pr.R_vec
      (o.domainSep st n) hL hR
    have hlen' : us.length = pr.L_vec.length := by
      rw [hlen, List.length_zip]
      omega
    refine ⟨us, st', hch, hlen', ?_, ?_⟩
    · intro hz
      rw [verification_scalars]
      simp only []
      rw [if_neg (by omega), if_neg (fun hne => hne hn), hch]
      simp only []
      rw [if_pos hz]
    · intro hnz
      refine ⟨verification_scalars_eval o pr n st h32 hn hch hnz, ?_, ?_, ?_⟩
      · rw [List.length_map, hlen']
      · rw [List.length_map, List.length_map, hlen']
      · rw [List.length_map, List.length_range]

/-- C7 (witness): the size-check branch exercised on a concrete instance
(`n = 5` is not `2^0`). -/
theorem C7_witness :
    verification_scalars o1 (⟨[], [], 1, 2⟩ : InnerProductProof (Fin 5) (Fin 5)) 5 ()
      = .error ProofError.VerificationError :=
  C7_error_contract.1 o1 ⟨[], [], 1, 2⟩ 5 () (Or.inr (by decide))

/-- C8: `from_bytes` fails -- always with `FormatError` -- exactly on the
claimed rejection conditions (length below 64, `(len−64) mod 48 ≠ 0`, odd
point count, `k ≥ 32`, a 48-byte group failing decompression, or a scalar
failing canonical decoding), and returns `Ok` otherwise. -/
theorem C8_parse_contract (c : Codec F G) (bs : List Nat) :
    (from_bytes c bs = .error ProofError.FormatError ↔ from_bytes_rejects c bs)
    ∧ (¬ from_bytes_rejects c bs → ∃ pr, from_bytes c bs = .ok pr) := by
  obtain ⟨h1, h2⟩ := from_bytes_spec c bs
  refine ⟨⟨?_, h1⟩, h2⟩
  intro herr
  by_contra hnb
  obtain ⟨pr, hok⟩ := h2 hnb
  rw [herr] at hok
  exact absurd hok (by simp)

/-- C8 (witness): the empty byte string is rejected with `FormatError`. -/
theorem C8_witness : from_bytes f5Codec [] = .error ProofError.FormatError :=
  (C8_parse_contract f5Codec []).1.mpr (Or.inl (by decide))

/-- C9: `create` panics exactly when the six input vectors do not share one
length that is a positive power of two (`is_power_of_two 0 = false`, so
`n = 0` panics); under the precondition every error is `FormatError` and
comes from a zero (non-invertible) squeezed challenge, and if the transcript
never squeezes zero then `create` succeeds. -/
theorem C9_create_contract :
    (∀ (o : Oracle F G S) (Q : G) (gf hf : List F) (Gv Hv : List G) (av bv : List F)
        (st : S),
        create o Q gf hf Gv Hv av bv st = CResult.panic
          ↔ ¬(Hv.length = Gv.length ∧ av.length = Gv.length ∧ bv.length = Gv.length
              ∧ gf.length = Gv.length ∧ hf.length = Gv.length
              ∧ is_power_of_two Gv.length = true))
    ∧ (∀ (o : Oracle F G S) (Q : G) (gf hf : List F) (Gv Hv : List G) (av bv : List F)
        (st : S) (k : Nat), Gv.length = 2 ^ k → Hv.length = 2 ^ k → av.length = 2 ^ k →
        bv.length = 2 ^ k → gf.length = 2 ^ k → hf.length = 2 ^ k →
        (∀ e, create o Q gf hf Gv Hv av bv st = CResult.err e →
          e = ProofError.FormatError ∧ ∃ st0, (o.challenge st0).1 = 0)
        ∧ ((∀ s : S, (o.challenge s).1 ≠ 0) →
            ∃ pr st', create o Q gf hf Gv Hv av bv st = CResult.ok pr st')) := by
  constructor
  · intro o Q gf hf Gv Hv av bv st
    exact create_panic_iff o Q gf hf Gv Hv av bv st
  · intro o Q gf hf Gv Hv av bv st k hG hH ha hb hgf hhf
    constructor
    · intro e he
      exact create_err_spec o Q gf hf Gv Hv av bv st hG hH ha hb hgf hhf he
    · intro hch
      obtain ⟨pr, st', hok, _, _⟩ := create_ok_of_nonzero o Q gf hf Gv Hv av bv st
        hG hH ha hb hgf hhf hch
      exact ⟨pr, st', hok⟩

/-- C9 (witness): mismatched input lengths panic on a concrete instance. -/
theorem C9_witness :
    create o1 1 [1] [1] ([1, 1] : List (Fin 5)) [1] [1] [1] () = CResult.panic :=
  (C9_create_contract.1 o1 1 [1] [1] [1, 1] [1] [1] [1] ()).mpr (by decide)

/-- C10: the streaming serializer `to_bytes_iter` produces, byte for byte,
the same sequence as `to_bytes`. -/
theorem C10_serializers_agree (c : Codec F G) (pr : InnerProductProof F G) :
    to_bytes c pr = to_bytes_iter c pr :=
  to_bytes_eq_iter c pr

end IPP
